import Mathlib

/-!
Verification of the interval-tree-clock stamp algebra (`src/lib.rs`) and its
wire codec (`src/serde.rs`).

The Rust types and functions are embedded shallowly:

* `IdTree`, `EventTree`, `Stamp` mirror the Rust enums/struct; `u32` counts are
  modelled as `Nat` (no call site of `lift`/`sink` in the sources can wrap or
  underflow on the values reached by the algebra; `sink` is only invoked with a
  subtrahend bounded by the base it is applied to).
* Functions that can hit `unreachable!()` in Rust (`Stamp::grow`,
  `IdTree::split`'s inner destructuring, `IdTree::sum`, and the stamp verbs
  built on them) return `Option`: `none` models a panic.
* `Cow` in `Stamp::fill` is a pure allocation optimisation (spec §9) and is
  dropped: `fill` returns the event tree itself.
* `EventTree::join` recurses in Rust by first expanding a leaf into
  `Node(n, 0, 0)` and by swapping the arguments when the left base exceeds the
  right one.  Here those two bounded preprocessing steps are unfolded into the
  four constructor cases (each equation below is the literal result of running
  the Rust code one or two steps until it reaches the structurally recursive
  node/node body), so that the recursion is visibly decreasing.
-/

namespace Itc

/-- The ownership tree (`enum IdTree` in `src/lib.rs`). -/
inductive IdTree where
  | leaf (i : Bool) : IdTree
  | node (left right : IdTree) : IdTree
deriving DecidableEq, Repr

/-- The event-history tree (`enum EventTree` in `src/lib.rs`); `n` is the base. -/
inductive EventTree where
  | leaf (n : Nat) : EventTree
  | node (n : Nat) (left right : EventTree) : EventTree
deriving DecidableEq, Repr

/-- `struct Stamp` (`src/lib.rs`): an ownership tree paired with a history. -/
structure Stamp where
  i : IdTree
  e : EventTree
deriving DecidableEq, Repr

/-- `IdTree::zero()`: the not-owned leaf. -/
def IdTree.zero : IdTree := .leaf false

/-- `IdTree::one()`: the fully-owned leaf. -/
def IdTree.one : IdTree := .leaf true

/-- `EventTree::n()`: the base value at the root. -/
def EventTree.n : EventTree → Nat
  | .leaf n => n
  | .node n _ _ => n

/-- `EventTree::lift(m)`: add `m` to the root base. -/
def EventTree.lift : EventTree → Nat → EventTree
  | .leaf n, m => .leaf (n + m)
  | .node n l r, m => .node (n + m) l r

/-- `EventTree::sink(m)`: subtract `m` from the root base. -/
def EventTree.sink : EventTree → Nat → EventTree
  | .leaf n, m => .leaf (n - m)
  | .node n l r, m => .node (n - m) l r

/-- `Min for EventTree`: base plus minimum over the children. -/
def EventTree.minv : EventTree → Nat
  | .leaf n => n
  | .node n l r => n + min l.minv r.minv

/-- `Max for EventTree`: base plus maximum over the children. -/
def EventTree.maxv : EventTree → Nat
  | .leaf n => n
  | .node n l r => n + max l.maxv r.maxv

/-- Internal node count of an event tree (termination measure only). -/
def EventTree.sz : EventTree → Nat
  | .leaf _ => 0
  | .node _ l r => 1 + l.sz + r.sz

/-- Internal node count of an ownership tree (termination measure only). -/
def IdTree.szi : IdTree → Nat
  | .leaf _ => 0
  | .node l r => 1 + l.szi + r.szi

/-- `Normalisable for IdTree`: collapse nodes whose normalised children are
equal leaves. -/
def IdTree.norm : IdTree → IdTree
  | .leaf i => .leaf i
  | .node l r =>
    match l.norm, r.norm with
    | .leaf i1, .leaf i2 => if i1 = i2 then .leaf i1 else .node (.leaf i1) (.leaf i2)
    | nl, nr => .node nl nr

/-- The node-rebuilding step of `Normalisable for EventTree`, applied to the
already-normalised children: collapse equal leaves, otherwise sink the smaller
child base into the parent. -/
def EventTree.normNode (n : Nat) (nl nr : EventTree) : EventTree :=
  match nl, nr with
  | .leaf m1, .leaf m2 =>
    if m1 = m2 then .leaf (n + m1)
    else .node (n + min m1 m2) (.leaf (m1 - min m1 m2)) (.leaf (m2 - min m1 m2))
  | nl, nr => .node (n + min nl.n nr.n) (nl.sink (min nl.n nr.n)) (nr.sink (min nl.n nr.n))

/-- `Normalisable for EventTree`. -/
def EventTree.norm : EventTree → EventTree
  | .leaf n => .leaf n
  | .node n l r => EventTree.normNode n l.norm r.norm

/-- All counts in the tree fit in a `u32` (the Rust leaf payload type). -/
def EventTree.u32Bounded : EventTree → Bool
  | .leaf n => decide (n < 4294967296)
  | .node n l r => decide (n < 4294967296) && l.u32Bounded && r.u32Bounded


theorem EventTree.sz_lift (t : EventTree) (m : Nat) : (t.lift m).sz = t.sz := by
  cases t <;> simp [EventTree.lift, EventTree.sz]

/-- `EventTree::join`: pointwise maximum.  Each equation is the Rust
computation unfolded past the bounded leaf-expansion and argument-swap steps
(see the header comment). -/
def EventTree.join : EventTree → EventTree → EventTree
  | .leaf n1, .leaf n2 => .leaf (max n1 n2)
  | .leaf n1, .node n2 l2 r2 =>
    if n1 > n2 then
      (EventTree.node n2 (EventTree.join l2 (.leaf (n1 - n2)))
        (EventTree.join r2 (.leaf (n1 - n2)))).norm
    else
      (EventTree.node n1 (EventTree.join (.leaf 0) (l2.lift (n2 - n1)))
        (EventTree.join (.leaf 0) (r2.lift (n2 - n1)))).norm
  | .node n1 l1 r1, .leaf n2 =>
    if n1 > n2 then
      (EventTree.node n2 (EventTree.join (.leaf 0) (l1.lift (n1 - n2)))
        (EventTree.join (.leaf 0) (r1.lift (n1 - n2)))).norm
    else
      (EventTree.node n1 (EventTree.join l1 (.leaf (n2 - n1)))
        (EventTree.join r1 (.leaf (n2 - n1)))).norm
  | .node n1 l1 r1, .node n2 l2 r2 =>
    if n1 > n2 then
      (EventTree.node n2 (EventTree.join l2 (l1.lift (n1 - n2)))
        (EventTree.join r2 (r1.lift (n1 - n2)))).norm
    else
      (EventTree.node n1 (EventTree.join l1 (l2.lift (n2 - n1)))
        (EventTree.join r1 (r2.lift (n2 - n1)))).norm
termination_by a b => a.sz + b.sz
decreasing_by all_goals simp [EventTree.sz, EventTree.sz_lift] <;> omega

/-- `LessThanOrEqual for EventTree`: the pointwise-domination test. -/
def EventTree.leq : EventTree → EventTree → Bool
  | .leaf n1, .leaf n2 => n1 ≤ n2
  | .leaf n1, .node n2 _ _ => n1 ≤ n2
  | .node n1 l1 r1, .leaf n2 =>
    n1 ≤ n2 && (l1.lift n1).leq (.leaf n2) && (r1.lift n1).leq (.leaf n2)
  | .node n1 l1 r1, .node n2 l2 r2 =>
    n1 ≤ n2 && (l1.lift n1).leq (l2.lift n2) && (r1.lift n1).leq (r2.lift n2)
termination_by a b => a.sz + b.sz
decreasing_by all_goals simp [EventTree.sz, EventTree.sz_lift] <;> omega

/-- Modelled from the spec: the cost type of `src/cost.rs`, which is not among
the provided sources.  `grow` charges one `inc` per tree level traversed and
one `shift` per leaf expanded; per §4.3 a leaf owned end-to-end costs zero and
expansion (new structure) must dominate any number of traversals, so costs
compare lexicographically with `shifts` first. -/
structure Cost where
  shifts : Nat
  steps : Nat
deriving DecidableEq, Repr

/-- Modelled from the spec: `Cost::zero()`. -/
def Cost.zero : Cost := ⟨0, 0⟩

/-- Modelled from the spec: `Cost::shift()`, charged when a leaf is expanded. -/
def Cost.shift (c : Cost) : Cost := ⟨c.shifts + 1, c.steps⟩

/-- Modelled from the spec: `c + 1`, charged per traversed level. -/
def Cost.inc (c : Cost) : Cost := ⟨c.shifts, c.steps + 1⟩

/-- Modelled from the spec: the strict order used by `grow`'s tie-break
(experiencing a leaf expansion dominates any number of traversals). -/
def Cost.lt (a b : Cost) : Bool :=
  a.shifts < b.shifts || (a.shifts = b.shifts && a.steps < b.steps)

/-- Weight of the event component in `grow`'s termination measure. -/
def EventTree.leafFlag : EventTree → Nat
  | .leaf _ => 1
  | .node _ _ _ => 0

theorem EventTree.leafFlag_le (t : EventTree) : t.leafFlag ≤ 1 := by
  cases t <;> simp [EventTree.leafFlag]

/-- The recursion of `Stamp::fill`, uncurried over the stamp's two fields so
that it is structural in the ownership tree.  The four equations are the Rust
`if self.i == zero / == one / self.e leaf / node-node` chain; the
`unreachable!()` arms cannot be reached because an ownership leaf is always
`zero` or `one`. -/
def Stamp.fillRec : IdTree → EventTree → EventTree
  | .leaf false, e => e
  | .leaf true, e => .leaf e.maxv
  | .node _ _, .leaf n => .leaf n
  | .node il ir, .node n el er =>
    if il = IdTree.one then
      (EventTree.node n (.leaf (max el.maxv (Stamp.fillRec ir er).minv))
        (Stamp.fillRec ir er)).norm
    else if ir = IdTree.one then
      (EventTree.node n (Stamp.fillRec il el)
        (.leaf (max er.maxv (Stamp.fillRec il el).minv))).norm
    else
      (EventTree.node n (Stamp.fillRec il el) (Stamp.fillRec ir er)).norm

/-- `Stamp::fill`: harvest slack at unowned positions. -/
def Stamp.fill (s : Stamp) : EventTree := Stamp.fillRec s.i s.e

/-- The recursion of `Stamp::grow`, uncurried over the stamp's two fields.
In Rust, `grow` on a leaf event tree other than the fully-owned base case
first expands the leaf into `Node(n, 0, 0)` and recurses on the same
ownership tree before adding `shift` to the cost; that single bounded step is
unfolded here into the `(node, leaf)` equation (whose body is the node/node
body applied to zero-leaf children, with `shift` applied on top), so the
recursion is structural in the ownership tree.  `none` models the
`unreachable!()` panic, which fires whenever a leaf ownership tree meets a
node event tree — including via the expansion step when the ownership is the
not-owned leaf. -/
def Stamp.growRec : IdTree → EventTree → Option (EventTree × Cost)
  | .leaf true, .leaf n => some (.leaf (n + 1), Cost.zero)
  | .leaf false, .leaf _ => none
  | .leaf _, .node _ _ _ => none
  | .node il ir, .leaf n =>
    if il = IdTree.zero then
      (Stamp.growRec ir (.leaf 0)).map
        (fun p => (EventTree.node n (.leaf 0) p.1, p.2.inc.shift))
    else if ir = IdTree.zero then
      (Stamp.growRec il (.leaf 0)).map
        (fun p => (EventTree.node n p.1 (.leaf 0), p.2.inc.shift))
    else
      match Stamp.growRec ir (.leaf 0), Stamp.growRec il (.leaf 0) with
      | some (er', cr), some (el', cl) =>
        if cl.lt cr then some (EventTree.node n el' (.leaf 0), cl.inc.shift)
        else some (EventTree.node n (.leaf 0) er', cr.inc.shift)
      | _, _ => none
  | .node il ir, .node n l r =>
    if il = IdTree.zero then
      (Stamp.growRec ir r).map (fun p => (EventTree.node n l p.1, p.2.inc))
    else if ir = IdTree.zero then
      (Stamp.growRec il l).map (fun p => (EventTree.node n p.1 r, p.2.inc))
    else
      match Stamp.growRec ir r, Stamp.growRec il l with
      | some (er', cr), some (el', cl) =>
        if cl.lt cr then some (EventTree.node n el' r, cl.inc)
        else some (EventTree.node n l er', cr.inc)
      | _, _ => none

/-- `Stamp::grow`: increment the cheapest owned position. -/
def Stamp.grow (s : Stamp) : Option (EventTree × Cost) := Stamp.growRec s.i s.e

/-- `Split for IdTree`: `none` models the `unreachable!()` on the inner
destructuring (the recursive `split` in fact always returns a node). -/
def IdTree.split : IdTree → Option IdTree
  | .leaf false => some (.node IdTree.zero IdTree.zero)
  | .leaf true =>
    some (.node (.node IdTree.one IdTree.zero) (.node IdTree.zero IdTree.one))
  | .node l r =>
    if l = IdTree.zero then
      match r.split with
      | some (.node i1 i2) => some (.node (.node IdTree.zero i1) (.node IdTree.zero i2))
      | _ => none
    else if r = IdTree.zero then
      match l.split with
      | some (.node i1 i2) => some (.node (.node i1 IdTree.zero) (.node i2 IdTree.zero))
      | _ => none
    else
      some (.node (.node l IdTree.zero) (.node IdTree.zero r))

/-- `Sum for IdTree`: the patterns mirror the Rust `== zero` checks (first on
`self`, then on `other`) followed by the node/node recursion; the remaining
leaf cases are the `unreachable!()` arms, modelled as `none`. -/
def IdTree.sum : IdTree → IdTree → Option IdTree
  | .leaf false, b => some b
  | a, .leaf false => some a
  | .leaf true, _ => none
  | _, .leaf true => none
  | .node l1 r1, .node l2 r2 =>
    match l1.sum l2, r1.sum r2 with
    | some nl, some nr => some (IdTree.node nl nr).norm
    | _, _ => none

/-- `LessThanOrEqual for Stamp`: compares histories only. -/
def Stamp.leq (a b : Stamp) : Bool := a.e.leq b.e

/-- `Stamp::seed()`: full ownership, empty history. -/
def Stamp.seed : Stamp := ⟨IdTree.one, .leaf 0⟩

/-- `Stamp::peek`: an ownership-free reader plus the unchanged stamp. -/
def Stamp.peek (s : Stamp) : Stamp × Stamp := (⟨IdTree.zero, s.e⟩, ⟨s.i, s.e⟩)

/-- `Stamp::fork`: split the ownership tree, duplicate the history. -/
def Stamp.fork (s : Stamp) : Option (Stamp × Stamp) :=
  match s.i.split with
  | some (.node l r) => some (⟨l, s.e⟩, ⟨r, s.e⟩)
  | _ => none

/-- `Stamp::join`: sum the ownership trees, join the histories. -/
def Stamp.join (a b : Stamp) : Option Stamp :=
  (a.i.sum b.i).map (fun si => ⟨si, a.e.join b.e⟩)

/-- `Stamp::event`: use the fill result when it changed the history, otherwise
grow. -/
def Stamp.event (s : Stamp) : Option Stamp :=
  if s.fill ≠ s.e then some ⟨s.i, s.fill⟩
  else (s.grow).map (fun p => ⟨s.i, p.1⟩)

/-! ## Wire codec (`src/serde.rs`)

The codec is embedded over a small JSON value type.  Encoding mirrors
`TupleIdTree` / `TupleEventTree` / `TupleStamp`; decoding mirrors the derived
`#[serde(untagged)]` deserialisers composed with the `From<&Tuple…>`
conversions: an untagged enum tries its variants in order, a `u8` / `u32`
leaf variant accepts exactly the integers of that Rust type's range, and a
tuple variant accepts exactly a sequence of its arity.  Struct fields are
looked up by name (serde's default is order-insensitive and ignores unknown
fields). -/

/-- JSON values, as far as the codec needs them. -/
inductive Json where
  | num (n : Int) : Json
  | arr (elems : List Json) : Json
  | obj (fields : List (String × Json)) : Json

/-- `From<&IdTree> for TupleIdTree` followed by serialisation: a leaf becomes
`0` or `1`, a node becomes a two-element array. -/
def IdTree.encode : IdTree → Json
  | .leaf i => .num (if i then 1 else 0)
  | .node l r => .arr [l.encode, r.encode]

/-- `From<&EventTree> for TupleEventTree` followed by serialisation: a leaf
becomes its count, a node becomes `[left, n, right]`. -/
def EventTree.encode : EventTree → Json
  | .leaf n => .num n
  | .node n l r => .arr [l.encode, .num n, r.encode]

/-- `Serialize for Stamp`: a struct with fields `id` and `event`. -/
def Stamp.encode (s : Stamp) : Json :=
  .obj [("id", s.i.encode), ("event", s.e.encode)]

/-- Untagged deserialisation of `TupleIdTree` followed by
`From<&TupleIdTree> for IdTree`: the `Leaf(u8)` variant accepts every integer
in `0..=255` and maps it to `i == 1`; the `Node` variant accepts exactly a
two-element array. -/
def decodeIdTree : Json → Option IdTree
  | .num n => if 0 ≤ n ∧ n ≤ 255 then some (.leaf (n == 1)) else none
  | .arr [a, b] =>
    match decodeIdTree a, decodeIdTree b with
    | some l, some r => some (.node l r)
    | _, _ => none
  | _ => none

/-- Untagged deserialisation of `TupleEventTree` followed by
`From<&TupleEventTree> for EventTree`: the `Leaf(u32)` variant accepts every
integer in `0..=2^32-1`; the `Node` variant accepts exactly `[left, n, right]`
with a `u32` in the middle. -/
def decodeEventTree : Json → Option EventTree
  | .num n => if 0 ≤ n ∧ n < 4294967296 then some (.leaf n.toNat) else none
  | .arr [a, .num n, b] =>
    if 0 ≤ n ∧ n < 4294967296 then
      match decodeEventTree a, decodeEventTree b with
      | some l, some r => some (.node n.toNat l r)
      | _, _ => none
    else none
  | _ => none

/-- `Deserialize for Stamp` via `TupleStamp`: both named fields must be
present and decode. -/
def decodeStamp : Json → Option Stamp
  | .obj fields =>
    match fields.lookup "id", fields.lookup "event" with
    | some ji, some je =>
      match decodeIdTree ji, decodeEventTree je with
      | some i, some e => some ⟨i, e⟩
      | _, _ => none
    | _, _ => none
  | _ => none

/-! ## Identity-space semantics (from the spec, §3 and the glossary)

An event tree denotes a count function over the `[0,1]` identity space; a
point of that space is an infinite path of binary choices (`false` = left).
These interpretation functions are used to *state* claims about pointwise
behaviour; they are not part of the embedded program. -/

/-- The count an event tree assigns to a point of the identity space. -/
def EventTree.val : EventTree → (Nat → Bool) → Nat
  | .leaf n, _ => n
  | .node n l r, p =>
    n + (match p 0 with
      | true => r.val (fun k => p (k + 1))
      | false => l.val (fun k => p (k + 1)))

/-- Whether an ownership tree owns a point of the identity space. -/
def IdTree.owns : IdTree → (Nat → Bool) → Bool
  | .leaf i, _ => i
  | .node l r, p =>
    match p 0 with
    | true => r.owns (fun k => p (k + 1))
    | false => l.owns (fun k => p (k + 1))

/-- Prepend one choice to a path. -/
def consPath (b : Bool) (p : Nat → Bool) : Nat → Bool :=
  fun k => match k with
  | 0 => b
  | k + 1 => p k

/-- A path on which an event tree attains its minimum. -/
def EventTree.minPath : EventTree → (Nat → Bool)
  | .leaf _ => fun _ => false
  | .node _ l r =>
    if l.minv ≤ r.minv then consPath false l.minPath else consPath true r.minPath

/-- A path on which an event tree attains its maximum. -/
def EventTree.maxPath : EventTree → (Nat → Bool)
  | .leaf _ => fun _ => false
  | .node _ l r =>
    if r.maxv ≤ l.maxv then consPath false l.maxPath else consPath true r.maxPath

/-! ## Normal-form and disjointness predicates -/

/-- Two event trees that are leaves of equal value (the collapse condition of
`Normalisable`). -/
def EventTree.eqLeaves : EventTree → EventTree → Bool
  | .leaf m1, .leaf m2 => m1 == m2
  | _, _ => false

/-- Structural characterisation of the fixed points of `EventTree.norm`. -/
def EventTree.isNormB : EventTree → Bool
  | .leaf _ => true
  | .node _ l r => l.isNormB && r.isNormB && (min l.n r.n == 0) && !(l.eqLeaves r)

/-- Two ownership trees that are leaves of equal value. -/
def IdTree.eqLeavesI : IdTree → IdTree → Bool
  | .leaf a, .leaf b => a == b
  | _, _ => false

/-- Structural characterisation of the fixed points of `IdTree.norm`. -/
def IdTree.isNormB : IdTree → Bool
  | .leaf _ => true
  | .node l r => l.isNormB && r.isNormB && !(l.eqLeavesI r)

/-- An ownership tree that owns nothing anywhere. -/
def IdTree.isEmptyB : IdTree → Bool
  | .leaf i => !i
  | .node l r => l.isEmptyB && r.isEmptyB

/-- Disjointness of two ownership trees (the spec's precondition on merge):
no point of the identity space is owned by both. -/
def IdTree.disjointB : IdTree → IdTree → Bool
  | .leaf false, _ => true
  | _, .leaf false => true
  | .leaf true, b => b.isEmptyB
  | a, .leaf true => a.isEmptyB
  | .node l1 r1, .node l2 r2 => l1.disjointB l2 && r1.disjointB r2

/-- Stamps reachable from `Stamp::seed()` by the public verbs; `event` and
`join` steps are those that return a value. -/
inductive Reach : Stamp → Prop where
  | seed : Reach Stamp.seed
  | forkL (s a b : Stamp) : Reach s → s.fork = some (a, b) → Reach a
  | forkR (s a b : Stamp) : Reach s → s.fork = some (a, b) → Reach b
  | event (s t : Stamp) : Reach s → s.event = some t → Reach t
  | peekL (s : Stamp) : Reach s → Reach (s.peek).1
  | peekR (s : Stamp) : Reach s → Reach (s.peek).2
  | join (a b t : Stamp) : Reach a → Reach b → Stamp.join a b = some t → Reach t

/-! ## Basic facts about the event-tree arithmetic helpers -/

theorem EventTree.n_lift (t : EventTree) (m : Nat) : (t.lift m).n = t.n + m := by
  cases t <;> simp [EventTree.lift, EventTree.n]

theorem EventTree.n_sink (t : EventTree) (m : Nat) : (t.sink m).n = t.n - m := by
  cases t <;> simp [EventTree.sink, EventTree.n]

theorem EventTree.lift_zero (t : EventTree) : t.lift 0 = t := by
  cases t <;> simp [EventTree.lift]

theorem EventTree.sink_zero (t : EventTree) : t.sink 0 = t := by
  cases t <;> simp [EventTree.sink]

theorem EventTree.lift_lift (t : EventTree) (a b : Nat) :
    (t.lift a).lift b = t.lift (a + b) := by
  cases t <;> simp [EventTree.lift] <;> omega

theorem EventTree.lift_sink (t : EventTree) (m j : Nat) (hm : m ≤ t.n) (hj : m ≤ j) :
    (t.sink m).lift j = t.lift (j - m) := by
  cases t <;> simp [EventTree.sink, EventTree.lift, EventTree.n] at * <;> omega

theorem EventTree.n_le_minv (t : EventTree) : t.n ≤ t.minv := by
  cases t <;> simp [EventTree.minv, EventTree.n]

theorem EventTree.minv_le_maxv (t : EventTree) : t.minv ≤ t.maxv := by
  induction t with
  | leaf n => simp [EventTree.minv, EventTree.maxv]
  | node n l r ihl ihr => simp [EventTree.minv, EventTree.maxv]; omega

theorem EventTree.minv_lift (t : EventTree) (m : Nat) :
    (t.lift m).minv = t.minv + m := by
  cases t <;> simp [EventTree.lift, EventTree.minv] <;> omega

theorem EventTree.maxv_lift (t : EventTree) (m : Nat) :
    (t.lift m).maxv = t.maxv + m := by
  cases t <;> simp [EventTree.lift, EventTree.maxv] <;> omega

theorem EventTree.minv_sink (t : EventTree) (m : Nat) (hm : m ≤ t.n) :
    (t.sink m).minv + m = t.minv := by
  cases t <;> simp [EventTree.sink, EventTree.minv, EventTree.n] at * <;> omega

theorem EventTree.maxv_sink (t : EventTree) (m : Nat) (hm : m ≤ t.n) :
    (t.sink m).maxv + m = t.maxv := by
  cases t <;> simp [EventTree.sink, EventTree.maxv, EventTree.n] at * <;> omega

theorem EventTree.n_le_val (t : EventTree) (p : Nat → Bool) : t.n ≤ t.val p := by
  cases t <;> simp [EventTree.val, EventTree.n]

theorem EventTree.val_lift (t : EventTree) (m : Nat) (p : Nat → Bool) :
    (t.lift m).val p = t.val p + m := by
  cases t <;> simp [EventTree.lift, EventTree.val] <;> omega

theorem EventTree.val_sink (t : EventTree) (m : Nat) (p : Nat → Bool) (hm : m ≤ t.n) :
    (t.sink m).val p + m = t.val p := by
  cases t <;> simp [EventTree.sink, EventTree.val, EventTree.n] at * <;> omega

theorem EventTree.minv_le_val (t : EventTree) (p : Nat → Bool) : t.minv ≤ t.val p := by
  induction t generalizing p with
  | leaf n => simp [EventTree.minv, EventTree.val]
  | node n l r ihl ihr =>
    simp only [EventTree.minv, EventTree.val]
    cases h : p 0
    · have := ihl (fun k => p (k + 1)); simp [h]; omega
    · have := ihr (fun k => p (k + 1)); simp [h]; omega

theorem EventTree.val_le_maxv (t : EventTree) (p : Nat → Bool) : t.val p ≤ t.maxv := by
  induction t generalizing p with
  | leaf n => simp [EventTree.maxv, EventTree.val]
  | node n l r ihl ihr =>
    simp only [EventTree.maxv, EventTree.val]
    cases h : p 0
    · have := ihl (fun k => p (k + 1)); simp [h]; omega
    · have := ihr (fun k => p (k + 1)); simp [h]; omega

theorem consPath_succ (b : Bool) (p : Nat → Bool) :
    (fun k => consPath b p (k + 1)) = p := by
  funext k; simp [consPath]

theorem EventTree.val_consPath (n : Nat) (l r : EventTree) (b : Bool) (p : Nat → Bool) :
    (EventTree.node n l r).val (consPath b p) = n + (if b then r else l).val p := by
  cases b <;> simp [EventTree.val, consPath, consPath_succ]

theorem EventTree.val_minPath (t : EventTree) : t.val t.minPath = t.minv := by
  induction t with
  | leaf n => simp [EventTree.minPath, EventTree.val, EventTree.minv]
  | node n l r ihl ihr =>
    by_cases h : l.minv ≤ r.minv <;>
      simp [EventTree.minPath, h, EventTree.val_consPath, EventTree.minv, ihl, ihr] <;>
      omega

theorem EventTree.val_maxPath (t : EventTree) : t.val t.maxPath = t.maxv := by
  induction t with
  | leaf n => simp [EventTree.maxPath, EventTree.val, EventTree.maxv]
  | node n l r ihl ihr =>
    by_cases h : r.maxv ≤ l.maxv <;>
      simp [EventTree.maxPath, h, EventTree.val_consPath, EventTree.maxv, ihl, ihr] <;>
      omega

/-! ## Canonicalisation: `norm` computes the `isNormB` normal form -/

theorem EventTree.isNormB_sink (t : EventTree) (m : Nat) :
    (t.sink m).isNormB = t.isNormB := by
  cases t <;> simp [EventTree.sink, EventTree.isNormB]

theorem EventTree.val_node_t (k : Nat) (l r : EventTree) (p : Nat → Bool)
    (hp : p 0 = true) :
    (EventTree.node k l r).val p = k + r.val (fun j => p (j + 1)) := by
  simp [EventTree.val, hp]

theorem EventTree.val_node_f (k : Nat) (l r : EventTree) (p : Nat → Bool)
    (hp : p 0 = false) :
    (EventTree.node k l r).val p = k + l.val (fun j => p (j + 1)) := by
  simp [EventTree.val, hp]

theorem EventTree.minv_normNode (n : Nat) (a b : EventTree) :
    (EventTree.normNode n a b).minv = (EventTree.node n a b).minv := by
  cases a with
  | leaf m1 =>
    cases b with
    | leaf m2 =>
      by_cases h : m1 = m2
      · subst h
        simp [EventTree.normNode, EventTree.minv]
      · simp only [EventTree.normNode, if_neg h]
        show n + min m1 m2 + min (m1 - min m1 m2) (m2 - min m1 m2) = n + min m1 m2
        omega
    | node m2 bl br =>
      show n + min m1 m2 + min (m1 - min m1 m2) (m2 - min m1 m2 + min bl.minv br.minv)
          = n + min m1 (m2 + min bl.minv br.minv)
      omega
  | node m1 al ar =>
    cases b with
    | leaf m2 =>
      show n + min m1 m2 + min (m1 - min m1 m2 + min al.minv ar.minv) (m2 - min m1 m2)
          = n + min (m1 + min al.minv ar.minv) m2
      omega
    | node m2 bl br =>
      show n + min m1 m2
            + min (m1 - min m1 m2 + min al.minv ar.minv)
              (m2 - min m1 m2 + min bl.minv br.minv)
          = n + min (m1 + min al.minv ar.minv) (m2 + min bl.minv br.minv)
      omega

theorem EventTree.maxv_normNode (n : Nat) (a b : EventTree) :
    (EventTree.normNode n a b).maxv = (EventTree.node n a b).maxv := by
  cases a with
  | leaf m1 =>
    cases b with
    | leaf m2 =>
      by_cases h : m1 = m2
      · subst h
        simp [EventTree.normNode, EventTree.maxv]
      · simp only [EventTree.normNode, if_neg h]
        show n + min m1 m2 + max (m1 - min m1 m2) (m2 - min m1 m2) = n + max m1 m2
        omega
    | node m2 bl br =>
      show n + min m1 m2 + max (m1 - min m1 m2) (m2 - min m1 m2 + max bl.maxv br.maxv)
          = n + max m1 (m2 + max bl.maxv br.maxv)
      omega
  | node m1 al ar =>
    cases b with
    | leaf m2 =>
      show n + min m1 m2 + max (m1 - min m1 m2 + max al.maxv ar.maxv) (m2 - min m1 m2)
          = n + max (m1 + max al.maxv ar.maxv) m2
      omega
    | node m2 bl br =>
      show n + min m1 m2
            + max (m1 - min m1 m2 + max al.maxv ar.maxv)
              (m2 - min m1 m2 + max bl.maxv br.maxv)
          = n + max (m1 + max al.maxv ar.maxv) (m2 + max bl.maxv br.maxv)
      omega

theorem EventTree.val_normNode (n : Nat) (a b : EventTree) (p : Nat → Bool) :
    (EventTree.normNode n a b).val p = (EventTree.node n a b).val p := by
  cases a with
  | leaf m1 =>
    cases b with
    | leaf m2 =>
      by_cases h : m1 = m2
      · subst h
        cases hp : p 0 <;> simp [EventTree.normNode, EventTree.val, hp]
      · cases hp : p 0
        · simp only [EventTree.normNode, if_neg h]
          rw [EventTree.val_node_f _ _ _ _ hp, EventTree.val_node_f _ _ _ _ hp]
          show n + min m1 m2 + (m1 - min m1 m2) = n + m1
          omega
        · simp only [EventTree.normNode, if_neg h]
          rw [EventTree.val_node_t _ _ _ _ hp, EventTree.val_node_t _ _ _ _ hp]
          show n + min m1 m2 + (m2 - min m1 m2) = n + m2
          omega
    | node m2 bl br =>
      cases hp : p 0
      · simp only [EventTree.normNode, EventTree.n]
        rw [EventTree.val_node_f _ _ _ _ hp, EventTree.val_node_f _ _ _ _ hp]
        show n + min m1 m2 + (m1 - min m1 m2) = n + m1
        omega
      · simp only [EventTree.normNode, EventTree.n]
        rw [EventTree.val_node_t _ _ _ _ hp, EventTree.val_node_t _ _ _ _ hp]
        have hs := EventTree.val_sink (EventTree.node m2 bl br) (min m1 m2)
          (fun j => p (j + 1)) (by simp only [EventTree.n]; exact Nat.min_le_right m1 m2)
        omega
  | node m1 al ar =>
    cases b with
    | leaf m2 =>
      cases hp : p 0
      · simp only [EventTree.normNode, EventTree.n]
        rw [EventTree.val_node_f _ _ _ _ hp, EventTree.val_node_f _ _ _ _ hp]
        have hs := EventTree.val_sink (EventTree.node m1 al ar) (min m1 m2)
          (fun j => p (j + 1)) (by simp only [EventTree.n]; exact Nat.min_le_left m1 m2)
        omega
      · simp only [EventTree.normNode, EventTree.n]
        rw [EventTree.val_node_t _ _ _ _ hp, EventTree.val_node_t _ _ _ _ hp]
        show n + min m1 m2 + (m2 - min m1 m2) = n + m2
        omega
    | node m2 bl br =>
      cases hp : p 0
      · simp only [EventTree.normNode, EventTree.n]
        rw [EventTree.val_node_f _ _ _ _ hp, EventTree.val_node_f _ _ _ _ hp]
        have hs := EventTree.val_sink (EventTree.node m1 al ar) (min m1 m2)
          (fun j => p (j + 1)) (by simp only [EventTree.n]; exact Nat.min_le_left m1 m2)
        omega
      · simp only [EventTree.normNode, EventTree.n]
        rw [EventTree.val_node_t _ _ _ _ hp, EventTree.val_node_t _ _ _ _ hp]
        have hs := EventTree.val_sink (EventTree.node m2 bl br) (min m1 m2)
          (fun j => p (j + 1)) (by simp only [EventTree.n]; exact Nat.min_le_right m1 m2)
        omega

theorem EventTree.isNormB_normNode (n : Nat) (a b : EventTree)
    (ha : a.isNormB = true) (hb : b.isNormB = true) :
    (EventTree.normNode n a b).isNormB = true := by
  cases a with
  | leaf m1 =>
    cases b with
    | leaf m2 =>
      by_cases h : m1 = m2
      · subst h
        simp [EventTree.normNode, EventTree.isNormB]
      · simp only [EventTree.normNode, if_neg h, EventTree.isNormB, EventTree.eqLeaves,
          EventTree.n, Bool.and_eq_true, beq_iff_eq, Bool.not_eq_true',
          beq_eq_false_iff_ne, ne_eq]
        refine ⟨⟨⟨trivial, trivial⟩, ?_⟩, ?_⟩ <;> omega
    | node m2 bl br =>
      simp only [EventTree.isNormB, EventTree.eqLeaves, Bool.and_eq_true, beq_iff_eq,
        Bool.not_eq_true'] at ha hb ⊢
      simp only [EventTree.normNode, EventTree.sink, EventTree.n, EventTree.isNormB,
        EventTree.eqLeaves, Bool.and_eq_true, beq_iff_eq, Bool.not_eq_true',
        beq_eq_false_iff_ne, ne_eq]
      obtain ⟨⟨⟨hbl, hbr⟩, hbm⟩, hbne⟩ := hb
      refine ⟨⟨⟨trivial, ⟨⟨⟨hbl, hbr⟩, hbm⟩, hbne⟩⟩, ?_⟩, trivial⟩
      omega
  | node m1 al ar =>
    cases b with
    | leaf m2 =>
      simp only [EventTree.isNormB, EventTree.eqLeaves, Bool.and_eq_true, beq_iff_eq,
        Bool.not_eq_true'] at ha hb ⊢
      simp only [EventTree.normNode, EventTree.sink, EventTree.n, EventTree.isNormB,
        EventTree.eqLeaves, Bool.and_eq_true, beq_iff_eq, Bool.not_eq_true',
        beq_eq_false_iff_ne, ne_eq]
      obtain ⟨⟨⟨hal, har⟩, ham⟩, hane⟩ := ha
      refine ⟨⟨⟨⟨⟨⟨hal, har⟩, ham⟩, hane⟩, trivial⟩, ?_⟩, trivial⟩
      omega
    | node m2 bl br =>
      simp only [EventTree.isNormB, EventTree.eqLeaves, Bool.and_eq_true, beq_iff_eq,
        Bool.not_eq_true'] at ha hb ⊢
      simp only [EventTree.normNode, EventTree.sink, EventTree.n, EventTree.isNormB,
        EventTree.eqLeaves, Bool.and_eq_true, beq_iff_eq, Bool.not_eq_true',
        beq_eq_false_iff_ne, ne_eq]
      obtain ⟨⟨⟨hal, har⟩, ham⟩, hane⟩ := ha
      obtain ⟨⟨⟨hbl, hbr⟩, hbm⟩, hbne⟩ := hb
      refine ⟨⟨⟨⟨⟨⟨hal, har⟩, ham⟩, hane⟩, ⟨⟨⟨hbl, hbr⟩, hbm⟩, hbne⟩⟩, ?_⟩, trivial⟩
      omega

theorem EventTree.minv_norm (t : EventTree) : t.norm.minv = t.minv := by
  induction t with
  | leaf n => simp [EventTree.norm]
  | node n l r ihl ihr =>
    simp [EventTree.norm, EventTree.minv_normNode, EventTree.minv, ihl, ihr]

theorem EventTree.maxv_norm (t : EventTree) : t.norm.maxv = t.maxv := by
  induction t with
  | leaf n => simp [EventTree.norm]
  | node n l r ihl ihr =>
    simp [EventTree.norm, EventTree.maxv_normNode, EventTree.maxv, ihl, ihr]

theorem EventTree.val_norm (t : EventTree) (p : Nat → Bool) :
    t.norm.val p = t.val p := by
  induction t generalizing p with
  | leaf n => simp [EventTree.norm]
  | node n l r ihl ihr =>
    rw [EventTree.norm, EventTree.val_normNode]
    cases hp : p 0 <;> simp [EventTree.val, hp, ihl, ihr]

theorem EventTree.isNormB_norm (t : EventTree) : t.norm.isNormB = true := by
  induction t with
  | leaf n => simp [EventTree.norm, EventTree.isNormB]
  | node n l r ihl ihr =>
    exact EventTree.isNormB_normNode n l.norm r.norm ihl ihr

theorem EventTree.norm_of_isNormB (t : EventTree) (h : t.isNormB = true) :
    t.norm = t := by
  induction t with
  | leaf n => simp [EventTree.norm]
  | node n l r ihl ihr =>
    simp only [EventTree.isNormB, Bool.and_eq_true, beq_iff_eq, Bool.not_eq_eq_eq_not,
      Bool.not_true] at h
    obtain ⟨⟨⟨hl, hr⟩, hmin⟩, hne⟩ := h
    rw [EventTree.norm, ihl hl, ihr hr]
    cases l with
    | leaf m1 =>
      cases r with
      | leaf m2 =>
        simp [EventTree.eqLeaves] at hne
        simp [EventTree.n] at hmin
        simp [EventTree.normNode, hne]
        constructor <;> [skip; constructor] <;> congr 1 <;> omega
      | node m2 rl rr =>
        simp [EventTree.n] at hmin
        simp [EventTree.normNode, EventTree.n, EventTree.sink]
        omega
    | node m1 ll lr =>
      cases r with
      | leaf m2 =>
        simp [EventTree.n] at hmin
        simp [EventTree.normNode, EventTree.n, EventTree.sink]
        omega
      | node m2 rl rr =>
        simp [EventTree.n] at hmin
        simp [EventTree.normNode, EventTree.n, EventTree.sink]
        omega

theorem EventTree.norm_norm (t : EventTree) : t.norm.norm = t.norm :=
  EventTree.norm_of_isNormB _ (EventTree.isNormB_norm t)

theorem EventTree.norm_fix_iff (t : EventTree) : t.norm = t ↔ t.isNormB = true := by
  constructor
  · intro h; rw [← h]; exact EventTree.isNormB_norm t
  · exact EventTree.norm_of_isNormB t

theorem EventTree.minv_n_of_isNormB (t : EventTree) (h : t.isNormB = true) :
    t.minv = t.n := by
  induction t with
  | leaf n => simp [EventTree.minv, EventTree.n]
  | node n l r ihl ihr =>
    simp only [EventTree.isNormB, Bool.and_eq_true, beq_iff_eq] at h
    obtain ⟨⟨⟨hl, hr⟩, hmin⟩, _⟩ := h
    show n + min l.minv r.minv = n
    rw [ihl hl, ihr hr, hmin, Nat.add_zero]

theorem IdTree.isNormB_normI (t : IdTree) : t.norm.isNormB = true := by
  induction t with
  | leaf i => simp [IdTree.norm, IdTree.isNormB]
  | node l r ihl ihr =>
    rw [IdTree.norm]
    cases hl : l.norm with
    | leaf i1 =>
      cases hr : r.norm with
      | leaf i2 =>
        by_cases h : i1 = i2 <;>
          simp_all [IdTree.isNormB, IdTree.eqLeavesI, h]
      | node a b => simp_all [IdTree.isNormB, IdTree.eqLeavesI]
    | node a b =>
      cases hr : r.norm <;> simp_all [IdTree.isNormB, IdTree.eqLeavesI]

theorem IdTree.norm_of_isNormBI (t : IdTree) (h : t.isNormB = true) : t.norm = t := by
  induction t with
  | leaf i => simp [IdTree.norm]
  | node l r ihl ihr =>
    simp only [IdTree.isNormB, Bool.and_eq_true, Bool.not_eq_eq_eq_not,
      Bool.not_true] at h
    obtain ⟨⟨hl, hr⟩, hne⟩ := h
    rw [IdTree.norm, ihl hl, ihr hr]
    cases l with
    | leaf i1 =>
      cases r with
      | leaf i2 =>
        simp [IdTree.eqLeavesI] at hne
        simp [hne]
      | node a b => simp
    | node a b => cases r <;> simp

theorem IdTree.norm_normI (t : IdTree) : t.norm.norm = t.norm :=
  IdTree.norm_of_isNormBI _ (IdTree.isNormB_normI t)

theorem IdTree.norm_fix_iffI (t : IdTree) : t.norm = t ↔ t.isNormB = true := by
  constructor
  · intro h; rw [← h]; exact IdTree.isNormB_normI t
  · exact IdTree.norm_of_isNormBI t

/-! ## Facts about the pointwise-domination test `leq` -/

theorem EventTree.leq_refl (t : EventTree) : t.leq t = true := by
  suffices H : ∀ k t, EventTree.sz t ≤ k → EventTree.leq t t = true from
    H t.sz t le_rfl
  intro k
  induction k with
  | zero =>
    intro t ht
    cases t with
    | leaf n => simp [EventTree.leq]
    | node n l r => simp [EventTree.sz] at ht
  | succ k ih =>
    intro t ht
    cases t with
    | leaf n => simp [EventTree.leq]
    | node n l r =>
      rw [EventTree.leq]
      simp only [EventTree.sz] at ht
      have h1 : EventTree.leq (l.lift n) (l.lift n) = true := by
        apply ih
        rw [EventTree.sz_lift]
        omega
      have h2 : EventTree.leq (r.lift n) (r.lift n) = true := by
        apply ih
        rw [EventTree.sz_lift]
        omega
      simp [h1, h2]

theorem EventTree.leq_lift_iff (a b : EventTree) (m : Nat) :
    (a.lift m).leq (b.lift m) = a.leq b := by
  suffices H : ∀ k a b, EventTree.sz a + EventTree.sz b ≤ k →
      ∀ m, EventTree.leq (a.lift m) (b.lift m) = EventTree.leq a b from
    H (a.sz + b.sz) a b le_rfl m
  intro k
  induction k with
  | zero =>
    intro a b ht m
    cases a with
    | leaf n1 =>
      cases b with
      | leaf n2 =>
        simp only [EventTree.lift, EventTree.leq, decide_eq_decide]
        omega
      | node n2 l2 r2 => simp [EventTree.sz] at ht
    | node n1 l1 r1 => simp [EventTree.sz] at ht
  | succ k ih =>
    intro a b ht m
    cases a with
    | leaf n1 =>
      cases b with
      | leaf n2 =>
        simp only [EventTree.lift, EventTree.leq, decide_eq_decide]
        omega
      | node n2 l2 r2 =>
        simp only [EventTree.lift, EventTree.leq, decide_eq_decide]
        omega
    | node n1 l1 r1 =>
      simp only [EventTree.sz] at ht
      cases b with
      | leaf n2 =>
        rw [EventTree.lift, EventTree.lift, EventTree.leq, EventTree.leq]
        have e1 : l1.lift (n1 + m) = (l1.lift n1).lift m := by
          rw [EventTree.lift_lift]
        have e2 : r1.lift (n1 + m) = (r1.lift n1).lift m := by
          rw [EventTree.lift_lift]
        have e3 : EventTree.leaf (n2 + m) = (EventTree.leaf n2).lift m := rfl
        rw [e1, e2, e3]
        rw [ih (l1.lift n1) (.leaf n2) (by rw [EventTree.sz_lift]; simp [EventTree.sz]; omega)]
        rw [ih (r1.lift n1) (.leaf n2) (by rw [EventTree.sz_lift]; simp [EventTree.sz]; omega)]
        have : decide (n1 + m ≤ n2 + m) = decide (n1 ≤ n2) := by
          simp only [decide_eq_decide]
          omega
        rw [this]
      | node n2 l2 r2 =>
        rw [EventTree.lift, EventTree.lift, EventTree.leq, EventTree.leq]
        have e1 : l1.lift (n1 + m) = (l1.lift n1).lift m := by
          rw [EventTree.lift_lift]
        have e2 : r1.lift (n1 + m) = (r1.lift n1).lift m := by
          rw [EventTree.lift_lift]
        have e3 : l2.lift (n2 + m) = (l2.lift n2).lift m := by
          rw [EventTree.lift_lift]
        have e4 : r2.lift (n2 + m) = (r2.lift n2).lift m := by
          rw [EventTree.lift_lift]
        rw [e1, e2, e3, e4]
        rw [ih (l1.lift n1) (l2.lift n2)
          (by rw [EventTree.sz_lift, EventTree.sz_lift]; simp [EventTree.sz] at ht; omega)]
        rw [ih (r1.lift n1) (r2.lift n2)
          (by rw [EventTree.sz_lift, EventTree.sz_lift]; simp [EventTree.sz] at ht; omega)]
        have : decide (n1 + m ≤ n2 + m) = decide (n1 ≤ n2) := by
          simp only [decide_eq_decide]
          omega
        rw [this]

theorem EventTree.leq_leaf_iff (t : EventTree) (c : Nat) :
    t.leq (.leaf c) = decide (t.maxv ≤ c) := by
  suffices H : ∀ k t, EventTree.sz t ≤ k →
      ∀ c, EventTree.leq t (.leaf c) = decide (t.maxv ≤ c) from
    H t.sz t le_rfl c
  intro k
  induction k with
  | zero =>
    intro t ht c
    cases t with
    | leaf n => simp [EventTree.leq, EventTree.maxv]
    | node n l r => simp [EventTree.sz] at ht
  | succ k ih =>
    intro t ht c
    cases t with
    | leaf n => simp [EventTree.leq, EventTree.maxv]
    | node n l r =>
      simp only [EventTree.sz] at ht
      rw [EventTree.leq]
      rw [ih (l.lift n) (by rw [EventTree.sz_lift]; omega)]
      rw [ih (r.lift n) (by rw [EventTree.sz_lift]; omega)]
      rw [Bool.eq_iff_iff]
      simp only [Bool.and_eq_true, decide_eq_true_eq, EventTree.maxv_lift, EventTree.maxv]
      omega

theorem EventTree.leq_sound (a b : EventTree) (h : a.leq b = true) (p : Nat → Bool) :
    a.val p ≤ b.val p := by
  suffices H : ∀ k a b, EventTree.sz a + EventTree.sz b ≤ k →
      EventTree.leq a b = true → ∀ p, EventTree.val a p ≤ EventTree.val b p from
    H (a.sz + b.sz) a b le_rfl h p
  intro k
  induction k with
  | zero =>
    intro a b ht h p
    cases a with
    | leaf n1 =>
      cases b with
      | leaf n2 => simp [EventTree.leq] at h; simp [EventTree.val]; omega
      | node n2 l2 r2 => simp [EventTree.sz] at ht
    | node n1 l1 r1 => simp [EventTree.sz] at ht
  | succ k ih =>
    intro a b ht h p
    cases a with
    | leaf n1 =>
      cases b with
      | leaf n2 => simp [EventTree.leq] at h; simp [EventTree.val]; omega
      | node n2 l2 r2 =>
        simp [EventTree.leq] at h
        have := EventTree.n_le_val (EventTree.node n2 l2 r2) p
        simp [EventTree.val, EventTree.n] at this ⊢
        omega
    | node n1 l1 r1 =>
      simp only [EventTree.sz] at ht
      cases b with
      | leaf n2 =>
        rw [EventTree.leq] at h
        simp only [Bool.and_eq_true, decide_eq_true_eq] at h
        obtain ⟨⟨hn, hl⟩, hr⟩ := h
        cases hp : p 0
        · have := ih (l1.lift n1) (.leaf n2)
            (by rw [EventTree.sz_lift]; simp [EventTree.sz]; omega) hl (fun j => p (j + 1))
          rw [EventTree.val_lift] at this
          rw [EventTree.val_node_f _ _ _ _ hp]
          simp [EventTree.val] at this ⊢
          omega
        · have := ih (r1.lift n1) (.leaf n2)
            (by rw [EventTree.sz_lift]; simp [EventTree.sz]; omega) hr (fun j => p (j + 1))
          rw [EventTree.val_lift] at this
          rw [EventTree.val_node_t _ _ _ _ hp]
          simp [EventTree.val] at this ⊢
          omega
      | node n2 l2 r2 =>
        rw [EventTree.leq] at h
        simp only [Bool.and_eq_true, decide_eq_true_eq] at h
        obtain ⟨⟨hn, hl⟩, hr⟩ := h
        cases hp : p 0
        · have := ih (l1.lift n1) (l2.lift n2)
            (by rw [EventTree.sz_lift, EventTree.sz_lift]; simp [EventTree.sz] at ht; omega) hl (fun j => p (j + 1))
          rw [EventTree.val_lift, EventTree.val_lift] at this
          rw [EventTree.val_node_f _ _ _ _ hp, EventTree.val_node_f _ _ _ _ hp]
          omega
        · have := ih (r1.lift n1) (r2.lift n2)
            (by rw [EventTree.sz_lift, EventTree.sz_lift]; simp [EventTree.sz] at ht; omega) hr (fun j => p (j + 1))
          rw [EventTree.val_lift, EventTree.val_lift] at this
          rw [EventTree.val_node_t _ _ _ _ hp, EventTree.val_node_t _ _ _ _ hp]
          omega

theorem EventTree.isNormB_lift (t : EventTree) (m : Nat) :
    (t.lift m).isNormB = t.isNormB := by
  cases t <;> simp [EventTree.lift, EventTree.isNormB]

theorem EventTree.isNormB_node_parts (n : Nat) (l r : EventTree)
    (h : (EventTree.node n l r).isNormB = true) :
    l.isNormB = true ∧ r.isNormB = true ∧ min l.n r.n = 0 ∧ l.eqLeaves r = false := by
  simp only [EventTree.isNormB, Bool.and_eq_true, beq_iff_eq, Bool.not_eq_true'] at h
  exact ⟨h.1.1.1, h.1.1.2, h.1.2, h.2⟩

theorem EventTree.leq_complete (a b : EventTree) (ha : a.isNormB = true)
    (hb : b.isNormB = true) (h : ∀ p, a.val p ≤ b.val p) : a.leq b = true := by
  suffices H : ∀ k a b, EventTree.sz a + EventTree.sz b ≤ k →
      a.isNormB = true → b.isNormB = true →
      (∀ p, EventTree.val a p ≤ EventTree.val b p) → EventTree.leq a b = true from
    H (a.sz + b.sz) a b le_rfl ha hb h
  intro k
  induction k with
  | zero =>
    intro a b ht ha hb h
    cases a with
    | leaf n1 =>
      cases b with
      | leaf n2 =>
        have := h (fun _ => false)
        simp [EventTree.val] at this
        simp [EventTree.leq]
        omega
      | node n2 l2 r2 => simp [EventTree.sz] at ht
    | node n1 l1 r1 => simp [EventTree.sz] at ht
  | succ k ih =>
    intro a b ht ha hb h
    cases a with
    | leaf n1 =>
      cases b with
      | leaf n2 =>
        have := h (fun _ => false)
        simp [EventTree.val] at this
        simp [EventTree.leq]
        omega
      | node n2 l2 r2 =>
        have hpt := h (EventTree.minPath (.node n2 l2 r2))
        rw [EventTree.val_minPath] at hpt
        rw [EventTree.minv_n_of_isNormB _ hb] at hpt
        simp [EventTree.val, EventTree.n] at hpt
        simp [EventTree.leq]
        omega
    | node n1 l1 r1 =>
      simp only [EventTree.sz] at ht
      obtain ⟨hal, har, _, _⟩ := EventTree.isNormB_node_parts _ _ _ ha
      cases b with
      | leaf n2 =>
        have hn : n1 ≤ n2 := by
          have h0 := h (fun _ => false)
          have h1 := EventTree.n_le_val (EventTree.node n1 l1 r1) (fun _ => false)
          simp [EventTree.val, EventTree.n] at h0 h1 ⊢
          omega
        rw [EventTree.leq]
        have hl : EventTree.leq (l1.lift n1) (.leaf n2) = true := by
          apply ih _ _ (by rw [EventTree.sz_lift]; simp [EventTree.sz]; omega)
          · rw [EventTree.isNormB_lift]; exact hal
          · simp [EventTree.isNormB]
          · intro q
            have := h (consPath false q)
            rw [EventTree.val_consPath] at this
            rw [EventTree.val_lift]
            simp [EventTree.val] at this ⊢
            omega
        have hr : EventTree.leq (r1.lift n1) (.leaf n2) = true := by
          apply ih _ _ (by rw [EventTree.sz_lift]; simp [EventTree.sz]; omega)
          · rw [EventTree.isNormB_lift]; exact har
          · simp [EventTree.isNormB]
          · intro q
            have := h (consPath true q)
            rw [EventTree.val_consPath] at this
            rw [EventTree.val_lift]
            simp [EventTree.val] at this ⊢
            omega
        simp [hl, hr, hn]
      | node n2 l2 r2 =>
        obtain ⟨hbl, hbr, _, _⟩ := EventTree.isNormB_node_parts _ _ _ hb
        have hn : n1 ≤ n2 := by
          have h0 := h (EventTree.minPath (.node n2 l2 r2))
          rw [EventTree.val_minPath] at h0
          rw [EventTree.minv_n_of_isNormB _ hb] at h0
          have h1 := EventTree.n_le_val (EventTree.node n1 l1 r1)
            (EventTree.minPath (.node n2 l2 r2))
          simp [EventTree.n] at h0 h1 ⊢
          omega
        rw [EventTree.leq]
        have hl : EventTree.leq (l1.lift n1) (l2.lift n2) = true := by
          apply ih _ _
            (by rw [EventTree.sz_lift, EventTree.sz_lift]; simp [EventTree.sz] at ht; omega)
          · rw [EventTree.isNormB_lift]; exact hal
          · rw [EventTree.isNormB_lift]; exact hbl
          · intro q
            have := h (consPath false q)
            rw [EventTree.val_consPath, EventTree.val_consPath] at this
            rw [EventTree.val_lift, EventTree.val_lift]
            simp at this ⊢
            omega
        have hr : EventTree.leq (r1.lift n1) (r2.lift n2) = true := by
          apply ih _ _
            (by rw [EventTree.sz_lift, EventTree.sz_lift]; simp [EventTree.sz] at ht; omega)
          · rw [EventTree.isNormB_lift]; exact har
          · rw [EventTree.isNormB_lift]; exact hbr
          · intro q
            have := h (consPath true q)
            rw [EventTree.val_consPath, EventTree.val_consPath] at this
            rw [EventTree.val_lift, EventTree.val_lift]
            simp at this ⊢
            omega
        simp [hl, hr, hn]

theorem EventTree.maxv_le_of_leq (a b : EventTree) (h : a.leq b = true) :
    a.maxv ≤ b.maxv := by
  have h1 := EventTree.leq_sound a b h (EventTree.maxPath a)
  rw [EventTree.val_maxPath] at h1
  exact le_trans h1 (EventTree.val_le_maxv b _)

theorem EventTree.leq_normNode_right (a : EventTree) (n2 : Nat) (L R : EventTree)
    (j : Nat) (h : a.leq ((EventTree.node n2 L R).lift j) = true) :
    a.leq ((EventTree.normNode n2 L R).lift j) = true := by
  cases L with
  | leaf c1 =>
    cases R with
    | leaf c2 =>
      by_cases hc : c1 = c2
      · subst hc
        rw [EventTree.normNode, if_pos rfl]
        have hup := EventTree.maxv_le_of_leq a _ h
        rw [EventTree.maxv_lift] at hup
        simp [EventTree.maxv] at hup
        rw [show (EventTree.leaf (n2 + c1)).lift j = EventTree.leaf (n2 + c1 + j) from rfl]
        rw [EventTree.leq_leaf_iff]
        simp only [decide_eq_true_eq]
        omega
      · rw [EventTree.normNode, if_neg hc]
        have hm1 : min c1 c2 ≤ c1 := Nat.min_le_left c1 c2
        have hm2 : min c1 c2 ≤ c2 := Nat.min_le_right c1 c2
        cases a with
        | leaf n1 =>
          simp only [EventTree.lift, EventTree.leq, decide_eq_true_eq] at h ⊢
          omega
        | node n1 ll rr =>
          rw [EventTree.lift, EventTree.leq] at h ⊢
          simp only [Bool.and_eq_true, decide_eq_true_eq] at h ⊢
          obtain ⟨⟨hn, hsl⟩, hsr⟩ := h
          refine ⟨⟨by omega, ?_⟩, ?_⟩
          · rw [show (EventTree.leaf (c1 - min c1 c2)).lift (n2 + min c1 c2 + j)
                = (EventTree.leaf c1).lift (n2 + j) from by
              simp only [EventTree.lift]; congr 1; omega]
            exact hsl
          · rw [show (EventTree.leaf (c2 - min c1 c2)).lift (n2 + min c1 c2 + j)
                = (EventTree.leaf c2).lift (n2 + j) from by
              simp only [EventTree.lift]; congr 1; omega]
            exact hsr
    | node c2 x2 y2 =>
      rw [show EventTree.normNode n2 (EventTree.leaf c1) (EventTree.node c2 x2 y2)
          = EventTree.node (n2 + min c1 c2) (EventTree.sink (.leaf c1) (min c1 c2))
            (EventTree.sink (.node c2 x2 y2) (min c1 c2)) from rfl]
      have hm1 : min c1 c2 ≤ c1 := Nat.min_le_left c1 c2
      have hm2 : min c1 c2 ≤ c2 := Nat.min_le_right c1 c2
      cases a with
      | leaf n1 =>
        simp only [EventTree.lift, EventTree.leq, decide_eq_true_eq] at h ⊢
        omega
      | node n1 ll rr =>
        rw [EventTree.lift, EventTree.leq] at h ⊢
        simp only [Bool.and_eq_true, decide_eq_true_eq] at h ⊢
        obtain ⟨⟨hn, hsl⟩, hsr⟩ := h
        refine ⟨⟨by omega, ?_⟩, ?_⟩
        · rw [show (EventTree.sink (.leaf c1) (min c1 c2)).lift (n2 + min c1 c2 + j)
              = (EventTree.leaf c1).lift (n2 + j) from by
            simp only [EventTree.sink, EventTree.lift]; congr 1; omega]
          exact hsl
        · rw [show (EventTree.sink (.node c2 x2 y2) (min c1 c2)).lift (n2 + min c1 c2 + j)
              = (EventTree.node c2 x2 y2).lift (n2 + j) from by
            simp only [EventTree.sink, EventTree.lift]; congr 1; omega]
          exact hsr
  | node c1 x1 y1 =>
    cases R with
    | leaf c2 =>
      rw [show EventTree.normNode n2 (EventTree.node c1 x1 y1) (EventTree.leaf c2)
          = EventTree.node (n2 + min c1 c2) (EventTree.sink (.node c1 x1 y1) (min c1 c2))
            (EventTree.sink (.leaf c2) (min c1 c2)) from rfl]
      have hm1 : min c1 c2 ≤ c1 := Nat.min_le_left c1 c2
      have hm2 : min c1 c2 ≤ c2 := Nat.min_le_right c1 c2
      cases a with
      | leaf n1 =>
        simp only [EventTree.lift, EventTree.leq, decide_eq_true_eq] at h ⊢
        omega
      | node n1 ll rr =>
        rw [EventTree.lift, EventTree.leq] at h ⊢
        simp only [Bool.and_eq_true, decide_eq_true_eq] at h ⊢
        obtain ⟨⟨hn, hsl⟩, hsr⟩ := h
        refine ⟨⟨by omega, ?_⟩, ?_⟩
        · rw [show (EventTree.sink (.node c1 x1 y1) (min c1 c2)).lift (n2 + min c1 c2 + j)
              = (EventTree.node c1 x1 y1).lift (n2 + j) from by
            simp only [EventTree.sink, EventTree.lift]; congr 1; omega]
          exact hsl
        · rw [show (EventTree.sink (.leaf c2) (min c1 c2)).lift (n2 + min c1 c2 + j)
              = (EventTree.leaf c2).lift (n2 + j) from by
            simp only [EventTree.sink, EventTree.lift]; congr 1; omega]
          exact hsr
    | node c2 x2 y2 =>
      rw [show EventTree.normNode n2 (EventTree.node c1 x1 y1) (EventTree.node c2 x2 y2)
          = EventTree.node (n2 + min c1 c2) (EventTree.sink (.node c1 x1 y1) (min c1 c2))
            (EventTree.sink (.node c2 x2 y2) (min c1 c2)) from rfl]
      have hm1 : min c1 c2 ≤ c1 := Nat.min_le_left c1 c2
      have hm2 : min c1 c2 ≤ c2 := Nat.min_le_right c1 c2
      cases a with
      | leaf n1 =>
        simp only [EventTree.lift, EventTree.leq, decide_eq_true_eq] at h ⊢
        omega
      | node n1 ll rr =>
        rw [EventTree.lift, EventTree.leq] at h ⊢
        simp only [Bool.and_eq_true, decide_eq_true_eq] at h ⊢
        obtain ⟨⟨hn, hsl⟩, hsr⟩ := h
        refine ⟨⟨by omega, ?_⟩, ?_⟩
        · rw [show (EventTree.sink (.node c1 x1 y1) (min c1 c2)).lift (n2 + min c1 c2 + j)
              = (EventTree.node c1 x1 y1).lift (n2 + j) from by
            simp only [EventTree.sink, EventTree.lift]; congr 1; omega]
          exact hsl
        · rw [show (EventTree.sink (.node c2 x2 y2) (min c1 c2)).lift (n2 + min c1 c2 + j)
              = (EventTree.node c2 x2 y2).lift (n2 + j) from by
            simp only [EventTree.sink, EventTree.lift]; congr 1; omega]
          exact hsr

theorem EventTree.leq_norm_right_lift (a b : EventTree) (j : Nat)
    (h : a.leq (b.lift j) = true) : a.leq (b.norm.lift j) = true := by
  suffices H : ∀ k a b, EventTree.sz a + EventTree.sz b ≤ k → ∀ j,
      EventTree.leq a (b.lift j) = true →
      EventTree.leq a ((EventTree.norm b).lift j) = true from
    H (a.sz + b.sz) a b le_rfl j h
  intro k
  induction k with
  | zero =>
    intro a b ht j h
    cases b with
    | leaf m => rw [EventTree.norm]; exact h
    | node n2 l2 r2 => simp [EventTree.sz] at ht
  | succ k ih =>
    intro a b ht j h
    cases b with
    | leaf m => rw [EventTree.norm]; exact h
    | node n2 l2 r2 =>
      simp only [EventTree.sz] at ht
      rw [EventTree.norm]
      apply EventTree.leq_normNode_right
      -- push the norms onto the children of a lifted node
      cases a with
      | leaf n1 =>
        simp only [EventTree.lift, EventTree.leq, decide_eq_true_eq] at h ⊢
        omega
      | node n1 ll rr =>
        rw [EventTree.lift, EventTree.leq] at h ⊢
        simp only [Bool.and_eq_true, decide_eq_true_eq] at h ⊢
        obtain ⟨⟨hn, hsl⟩, hsr⟩ := h
        refine ⟨⟨hn, ?_⟩, ?_⟩
        · exact ih (ll.lift n1) l2
            (by rw [EventTree.sz_lift]; simp [EventTree.sz] at ht; omega) (n2 + j) hsl
        · exact ih (rr.lift n1) r2
            (by rw [EventTree.sz_lift]; simp [EventTree.sz] at ht; omega) (n2 + j) hsr

theorem EventTree.leq_norm_right (a b : EventTree) (h : a.leq b = true) :
    a.leq b.norm = true := by
  have := EventTree.leq_norm_right_lift a b 0 (by rw [EventTree.lift_zero]; exact h)
  rw [EventTree.lift_zero] at this
  exact this

/-! ## Facts about `fill` -/

theorem Stamp.fillRec_leaf (i : IdTree) (n : Nat) :
    Stamp.fillRec i (.leaf n) = .leaf n := by
  cases i with
  | leaf b => cases b <;> simp [Stamp.fillRec, EventTree.maxv]
  | node il ir => simp [Stamp.fillRec]

theorem Stamp.fillRec_norm_or_eq (i : IdTree) (e : EventTree) :
    Stamp.fillRec i e = e ∨ (Stamp.fillRec i e).isNormB = true := by
  cases i with
  | leaf b =>
    cases b
    · left; rw [Stamp.fillRec]
    · right; rw [Stamp.fillRec]; simp [EventTree.isNormB]
  | node il ir =>
    cases e with
    | leaf n => left; exact Stamp.fillRec_leaf _ n
    | node n el er =>
      right
      rw [Stamp.fillRec]
      split_ifs <;> exact EventTree.isNormB_norm _

theorem EventTree.normNode_fix_inv (n : Nat) (X Y el er : EventTree)
    (h : EventTree.normNode n X Y = EventTree.node n el er) : X = el ∧ Y = er := by
  cases X with
  | leaf c1 =>
    cases Y with
    | leaf c2 =>
      by_cases hc : c1 = c2
      · rw [EventTree.normNode, if_pos hc] at h
        cases h
      · rw [EventTree.normNode, if_neg hc] at h
        have hm1 : min c1 c2 ≤ c1 := Nat.min_le_left c1 c2
        have hm2 : min c1 c2 ≤ c2 := Nat.min_le_right c1 c2
        injection h with h1 h2 h3
        have hm0 : min c1 c2 = 0 := by omega
        rw [hm0] at h2 h3
        simp at h2 h3
        exact ⟨h2 ▸ rfl, h3 ▸ rfl⟩
    | node c2 x2 y2 =>
      rw [show EventTree.normNode n (EventTree.leaf c1) (EventTree.node c2 x2 y2)
          = EventTree.node (n + min c1 c2) (EventTree.sink (.leaf c1) (min c1 c2))
            (EventTree.sink (.node c2 x2 y2) (min c1 c2)) from rfl] at h
      injection h with h1 h2 h3
      have hm0 : min c1 c2 = 0 := by omega
      rw [hm0] at h2 h3
      try simp only [Nat.sub_zero] at h2 h3
      exact ⟨h2, h3⟩
  | node c1 x1 y1 =>
    cases Y with
    | leaf c2 =>
      rw [show EventTree.normNode n (EventTree.node c1 x1 y1) (EventTree.leaf c2)
          = EventTree.node (n + min c1 c2) (EventTree.sink (.node c1 x1 y1) (min c1 c2))
            (EventTree.sink (.leaf c2) (min c1 c2)) from rfl] at h
      injection h with h1 h2 h3
      have hm0 : min c1 c2 = 0 := by omega
      rw [hm0] at h2 h3
      try simp only [Nat.sub_zero] at h2 h3
      exact ⟨h2, h3⟩
    | node c2 x2 y2 =>
      rw [show EventTree.normNode n (EventTree.node c1 x1 y1) (EventTree.node c2 x2 y2)
          = EventTree.node (n + min c1 c2) (EventTree.sink (.node c1 x1 y1) (min c1 c2))
            (EventTree.sink (.node c2 x2 y2) (min c1 c2)) from rfl] at h
      injection h with h1 h2 h3
      have hm0 : min c1 c2 = 0 := by omega
      rw [hm0] at h2 h3
      try simp only [Nat.sub_zero] at h2 h3
      exact ⟨h2, h3⟩

theorem EventTree.norm_node_inv (n : Nat) (A B el er : EventTree)
    (h : (EventTree.node n A B).norm = EventTree.node n el er) :
    A.norm = el ∧ B.norm = er := by
  rw [EventTree.norm] at h
  exact EventTree.normNode_fix_inv n A.norm B.norm el er h

theorem Stamp.fill_norm_fix_self (i : IdTree) (e : EventTree)
    (h : (Stamp.fillRec i e).norm = e) : Stamp.fillRec i e = e := by
  rcases Stamp.fillRec_norm_or_eq i e with hfe | hnf
  · exact hfe
  · rw [EventTree.norm_of_isNormB _ hnf] at h
    exact h

/-- Fixed points of `fill` at a node whose left ownership is fully owned:
the left history is a leaf already at its sibling-implied bound, and the right
history is itself a `fill` fixed point. -/
theorem Stamp.fill_fix_left_one (ir : IdTree) (n : Nat) (el er : EventTree)
    (hfix : Stamp.fillRec (.node IdTree.one ir) (.node n el er) = .node n el er) :
    ∃ c, el = .leaf c ∧ Stamp.fillRec ir er = er ∧ er.minv ≤ c := by
  rw [Stamp.fillRec, if_pos rfl] at hfix
  obtain ⟨h1, h2⟩ := EventTree.norm_node_inv _ _ _ _ _ hfix
  rw [EventTree.norm] at h1
  have h2' : Stamp.fillRec ir er = er := Stamp.fill_norm_fix_self ir er h2
  refine ⟨max el.maxv (Stamp.fillRec ir er).minv, h1.symm, h2', ?_⟩
  rw [h2'] at h1 ⊢
  have : er.minv ≤ max el.maxv er.minv := le_max_right _ _
  exact this

/-- Fixed points of `fill` at a node whose right ownership is fully owned
(and whose left is not). -/
theorem Stamp.fill_fix_right_one (il : IdTree) (n : Nat) (el er : EventTree)
    (hil : il ≠ IdTree.one)
    (hfix : Stamp.fillRec (.node il IdTree.one) (.node n el er) = .node n el er) :
    ∃ c, er = .leaf c ∧ Stamp.fillRec il el = el ∧ el.minv ≤ c := by
  rw [Stamp.fillRec, if_neg hil, if_pos rfl] at hfix
  obtain ⟨h1, h2⟩ := EventTree.norm_node_inv _ _ _ _ _ hfix
  rw [EventTree.norm] at h2
  have h1' : Stamp.fillRec il el = el := Stamp.fill_norm_fix_self il el h1
  refine ⟨max er.maxv (Stamp.fillRec il el).minv, h2.symm, h1', ?_⟩
  rw [h1'] at h2 ⊢
  exact le_max_right _ _

/-- Fixed points of `fill` at a node neither side of which is fully owned:
both children are themselves `fill` fixed points. -/
theorem Stamp.fill_fix_else (il ir : IdTree) (n : Nat) (el er : EventTree)
    (hil : il ≠ IdTree.one) (hir : ir ≠ IdTree.one)
    (hfix : Stamp.fillRec (.node il ir) (.node n el er) = .node n el er) :
    Stamp.fillRec il el = el ∧ Stamp.fillRec ir er = er := by
  rw [Stamp.fillRec, if_neg hil, if_neg hir] at hfix
  obtain ⟨h1, h2⟩ := EventTree.norm_node_inv _ _ _ _ _ hfix
  exact ⟨Stamp.fill_norm_fix_self il el h1, Stamp.fill_norm_fix_self ir er h2⟩

/-- Fixed points of `fill` with non-empty ownership are leaves or normal. -/
theorem Stamp.fill_fix_shape (i : IdTree) (e : EventTree) (hi : i ≠ IdTree.zero)
    (hfix : Stamp.fillRec i e = e) :
    (∃ c, e = .leaf c) ∨ e.isNormB = true := by
  rcases Stamp.fillRec_norm_or_eq i e with _ | hnf
  · cases i with
    | leaf b =>
      cases b
      · exact absurd rfl hi
      · rw [Stamp.fillRec] at hfix
        exact .inl ⟨e.maxv, hfix.symm⟩
    | node il ir =>
      cases e with
      | leaf c => exact .inl ⟨c, rfl⟩
      | node m el er =>
        right
        rw [← hfix]
        rw [Stamp.fillRec]
        split_ifs <;> exact EventTree.isNormB_norm _
  · rw [hfix] at hnf
    exact .inr hnf

theorem Stamp.fillRec_isNormB (i : IdTree) (e : EventTree) (he : e.isNormB = true) :
    (Stamp.fillRec i e).isNormB = true := by
  rcases Stamp.fillRec_norm_or_eq i e with hfe | hnf
  · rw [hfe]; exact he
  · exact hnf

theorem Stamp.fillRec_maxv (i : IdTree) (e : EventTree) :
    (Stamp.fillRec i e).maxv = e.maxv := by
  induction i, e using Stamp.fillRec.induct with
  | case1 e => rw [Stamp.fillRec]
  | case2 e => rw [Stamp.fillRec]; rw [EventTree.maxv]
  | case3 il ir n => rw [Stamp.fillRec_leaf]
  | case4 ir n el er ih =>
    rw [Stamp.fillRec, if_pos rfl, EventTree.maxv_norm]
    simp only [EventTree.maxv]
    have h1 := EventTree.minv_le_maxv (Stamp.fillRec ir er)
    rw [ih] at h1 ⊢
    omega
  | case5 il n el er hil ih =>
    rw [Stamp.fillRec, if_neg hil, if_pos rfl, EventTree.maxv_norm]
    simp only [EventTree.maxv]
    have h1 := EventTree.minv_le_maxv (Stamp.fillRec il el)
    rw [ih] at h1 ⊢
    omega
  | case6 il ir n el er hil hir ihl ihr =>
    rw [Stamp.fillRec, if_neg hil, if_neg hir, EventTree.maxv_norm]
    simp only [EventTree.maxv]
    rw [ihl, ihr]

theorem Stamp.fillRec_leq (i : IdTree) (e : EventTree) :
    e.leq (Stamp.fillRec i e) = true := by
  induction i, e using Stamp.fillRec.induct with
  | case1 e => rw [Stamp.fillRec]; exact EventTree.leq_refl e
  | case2 e =>
    rw [Stamp.fillRec, EventTree.leq_leaf_iff]
    simp
  | case3 il ir n => rw [Stamp.fillRec_leaf]; exact EventTree.leq_refl _
  | case4 ir n el er ih =>
    rw [Stamp.fillRec, if_pos rfl]
    apply EventTree.leq_norm_right
    rw [EventTree.leq]
    have hl : (el.lift n).leq ((EventTree.leaf
        (max el.maxv (Stamp.fillRec ir er).minv)).lift n) = true := by
      rw [EventTree.leq_lift_iff, EventTree.leq_leaf_iff]
      simp
    have hr : (er.lift n).leq ((Stamp.fillRec ir er).lift n) = true := by
      rw [EventTree.leq_lift_iff]
      exact ih
    simp [hl, hr]
  | case5 il n el er hil ih =>
    rw [Stamp.fillRec, if_neg hil, if_pos rfl]
    apply EventTree.leq_norm_right
    rw [EventTree.leq]
    have hl : (el.lift n).leq ((Stamp.fillRec il el).lift n) = true := by
      rw [EventTree.leq_lift_iff]
      exact ih
    have hr : (er.lift n).leq ((EventTree.leaf
        (max er.maxv (Stamp.fillRec il el).minv)).lift n) = true := by
      rw [EventTree.leq_lift_iff, EventTree.leq_leaf_iff]
      simp
    simp [hl, hr]
  | case6 il ir n el er hil hir ihl ihr =>
    rw [Stamp.fillRec, if_neg hil, if_neg hir]
    apply EventTree.leq_norm_right
    rw [EventTree.leq]
    have hl : (el.lift n).leq ((Stamp.fillRec il el).lift n) = true := by
      rw [EventTree.leq_lift_iff]; exact ihl
    have hr : (er.lift n).leq ((Stamp.fillRec ir er).lift n) = true := by
      rw [EventTree.leq_lift_iff]; exact ihr
    simp [hl, hr]

theorem Stamp.fillRec_val_ge (i : IdTree) (e : EventTree) (p : Nat → Bool) :
    e.val p ≤ (Stamp.fillRec i e).val p := by
  induction i, e using Stamp.fillRec.induct generalizing p with
  | case1 e => rw [Stamp.fillRec]
  | case2 e => rw [Stamp.fillRec]; simp [EventTree.val]; exact EventTree.val_le_maxv e p
  | case3 il ir n => rw [Stamp.fillRec_leaf]
  | case4 ir n el er ih =>
    rw [Stamp.fillRec, if_pos rfl, EventTree.val_norm]
    cases hp : p 0
    · rw [EventTree.val_node_f _ _ _ _ hp, EventTree.val_node_f _ _ _ _ hp]
      have h1 := EventTree.val_le_maxv el (fun j => p (j + 1))
      simp only [EventTree.val]
      omega
    · rw [EventTree.val_node_t _ _ _ _ hp, EventTree.val_node_t _ _ _ _ hp]
      have := ih (fun j => p (j + 1))
      omega
  | case5 il n el er hil ih =>
    rw [Stamp.fillRec, if_neg hil, if_pos rfl, EventTree.val_norm]
    cases hp : p 0
    · rw [EventTree.val_node_f _ _ _ _ hp, EventTree.val_node_f _ _ _ _ hp]
      have := ih (fun j => p (j + 1))
      omega
    · rw [EventTree.val_node_t _ _ _ _ hp, EventTree.val_node_t _ _ _ _ hp]
      have h1 := EventTree.val_le_maxv er (fun j => p (j + 1))
      simp only [EventTree.val]
      omega
  | case6 il ir n el er hil hir ihl ihr =>
    rw [Stamp.fillRec, if_neg hil, if_neg hir, EventTree.val_norm]
    cases hp : p 0
    · rw [EventTree.val_node_f _ _ _ _ hp, EventTree.val_node_f _ _ _ _ hp]
      have := ihl (fun j => p (j + 1))
      omega
    · rw [EventTree.val_node_t _ _ _ _ hp, EventTree.val_node_t _ _ _ _ hp]
      have := ihr (fun j => p (j + 1))
      omega


/-! ## Facts about `grow` -/

theorem EventTree.isNormB_node_intro (n : Nat) (l r : EventTree)
    (hl : l.isNormB = true) (hr : r.isNormB = true) (hmin : min l.n r.n = 0)
    (hne : l.eqLeaves r = false) : (EventTree.node n l r).isNormB = true := by
  simp [EventTree.isNormB, hl, hr, hmin, hne]

theorem EventTree.eqLeaves_node_right (l : EventTree) (k : Nat) (x y : EventTree) :
    l.eqLeaves (.node k x y) = false := by
  cases l <;> rfl

theorem IdTree.isNormB_node_partsI (l r : IdTree)
    (h : (IdTree.node l r).isNormB = true) :
    l.isNormB = true ∧ r.isNormB = true ∧ l.eqLeavesI r = false := by
  simp only [IdTree.isNormB, Bool.and_eq_true, Bool.not_eq_true'] at h
  exact ⟨h.1.1, h.1.2, h.2⟩

theorem Stamp.growRec_ne (i : IdTree) (e : EventTree) :
    ∀ e' c, Stamp.growRec i e = some (e', c) → e' ≠ e := by
  induction i, e using Stamp.growRec.induct with
  | case1 n =>
    intro e' c h
    rw [Stamp.growRec] at h
    injection h with h1
    injection h1 with h2 h3
    rw [← h2]
    simp
  | case2 n =>
    intro e' c h
    rw [Stamp.growRec] at h
    cases h
  | case3 b n l r =>
    intro e' c h
    rw [Stamp.growRec] at h
    cases h
  | case4 ir n ih =>
    intro e' c h
    rw [Stamp.growRec, if_pos rfl] at h
    rcases hg : Stamp.growRec ir (.leaf 0) with _ | ⟨g, cg⟩ <;> rw [hg] at h
    · cases h
    · simp only [Option.map_some'] at h
      injection h with h1
      injection h1 with h2 h3
      rw [← h2]
      simp
  | case5 il n hil ih =>
    intro e' c h
    rw [Stamp.growRec, if_neg hil, if_pos rfl] at h
    rcases hg : Stamp.growRec il (.leaf 0) with _ | ⟨g, cg⟩ <;> rw [hg] at h
    · cases h
    · simp only [Option.map_some'] at h
      injection h with h1
      injection h1 with h2 h3
      rw [← h2]
      simp
  | case6 il ir n hil hir er' cr el' cl hgl hgr hlt ihr ihl =>
    intro e' c h
    rw [Stamp.growRec, if_neg hil, if_neg hir] at h
    simp only [hgr, hgl] at h
    rw [if_pos hlt] at h
    injection h with h1
    injection h1 with h2 h3
    rw [← h2]
    simp
  | case7 il ir n hil hir er' cr el' cl hgl hgr hlt ihr ihl =>
    intro e' c h
    rw [Stamp.growRec, if_neg hil, if_neg hir] at h
    simp only [hgr, hgl] at h
    rw [if_neg hlt] at h
    injection h with h1
    injection h1 with h2 h3
    rw [← h2]
    simp
  | case8 il ir n hil hir hnone ihr ihl =>
    intro e' c h
    rw [Stamp.growRec, if_neg hil, if_neg hir] at h
    rcases hgr : Stamp.growRec ir (.leaf 0) with _ | ⟨gr, cgr⟩ <;>
      rcases hgl : Stamp.growRec il (.leaf 0) with _ | ⟨gl, cgl⟩ <;>
      simp only [hgr, hgl] at h <;> try cases h
    exact absurd (hnone gr cgr gl cgl hgr hgl) (by simp)
  | case9 ir n l r ih =>
    intro e' c h
    rw [Stamp.growRec, if_pos rfl] at h
    rcases hg : Stamp.growRec ir r with _ | ⟨g, cg⟩ <;> rw [hg] at h
    · cases h
    · simp only [Option.map_some'] at h
      injection h with h1
      injection h1 with h2 h3
      rw [← h2]
      intro hcon
      injection hcon with hc1 hc2 hc3
      exact ih g cg hg hc3
  | case10 il n l r hil ih =>
    intro e' c h
    rw [Stamp.growRec, if_neg hil, if_pos rfl] at h
    rcases hg : Stamp.growRec il l with _ | ⟨g, cg⟩ <;> rw [hg] at h
    · cases h
    · simp only [Option.map_some'] at h
      injection h with h1
      injection h1 with h2 h3
      rw [← h2]
      intro hcon
      injection hcon with hc1 hc2 hc3
      exact ih g cg hg hc2
  | case11 il ir n l r hil hir er' cr el' cl hgl hgr hlt ihr ihl =>
    intro e' c h
    rw [Stamp.growRec, if_neg hil, if_neg hir] at h
    simp only [hgr, hgl] at h
    rw [if_pos hlt] at h
    injection h with h1
    injection h1 with h2 h3
    rw [← h2]
    intro hcon
    injection hcon with hc1 hc2 hc3
    exact ihl el' cl hgl hc2
  | case12 il ir n l r hil hir er' cr el' cl hgl hgr hlt ihr ihl =>
    intro e' c h
    rw [Stamp.growRec, if_neg hil, if_neg hir] at h
    simp only [hgr, hgl] at h
    rw [if_neg hlt] at h
    injection h with h1
    injection h1 with h2 h3
    rw [← h2]
    intro hcon
    injection hcon with hc1 hc2 hc3
    exact ihr er' cr hgr hc3
  | case13 il ir n l r hil hir hnone ihr ihl =>
    intro e' c h
    rw [Stamp.growRec, if_neg hil, if_neg hir] at h
    rcases hgr : Stamp.growRec ir r with _ | ⟨gr, cgr⟩ <;>
      rcases hgl : Stamp.growRec il l with _ | ⟨gl, cgl⟩ <;>
      simp only [hgr, hgl] at h <;> try cases h
    exact absurd (hnone gr cgr gl cgl hgr hgl) (by simp)

theorem Stamp.growRec_leq (i : IdTree) (e : EventTree) :
    ∀ e' c, Stamp.growRec i e = some (e', c) → e.leq e' = true := by
  induction i, e using Stamp.growRec.induct with
  | case1 n =>
    intro e' c h
    rw [Stamp.growRec] at h
    injection h with h1
    injection h1 with h2 h3
    rw [← h2]
    simp [EventTree.leq]
  | case2 n =>
    intro e' c h
    rw [Stamp.growRec] at h
    cases h
  | case3 b n l r =>
    intro e' c h
    rw [Stamp.growRec] at h
    cases h
  | case4 ir n ih =>
    intro e' c h
    rw [Stamp.growRec, if_pos rfl] at h
    rcases hg : Stamp.growRec ir (.leaf 0) with _ | ⟨g, cg⟩ <;> rw [hg] at h
    · cases h
    · simp only [Option.map_some'] at h
      injection h with h1
      injection h1 with h2 h3
      rw [← h2]
      simp [EventTree.leq]
  | case5 il n hil ih =>
    intro e' c h
    rw [Stamp.growRec, if_neg hil, if_pos rfl] at h
    rcases hg : Stamp.growRec il (.leaf 0) with _ | ⟨g, cg⟩ <;> rw [hg] at h
    · cases h
    · simp only [Option.map_some'] at h
      injection h with h1
      injection h1 with h2 h3
      rw [← h2]
      simp [EventTree.leq]
  | case6 il ir n hil hir er' cr el' cl hgl hgr hlt ihr ihl =>
    intro e' c h
    rw [Stamp.growRec, if_neg hil, if_neg hir] at h
    simp only [hgr, hgl] at h
    rw [if_pos hlt] at h
    injection h with h1
    injection h1 with h2 h3
    rw [← h2]
    simp [EventTree.leq]
  | case7 il ir n hil hir er' cr el' cl hgl hgr hlt ihr ihl =>
    intro e' c h
    rw [Stamp.growRec, if_neg hil, if_neg hir] at h
    simp only [hgr, hgl] at h
    rw [if_neg hlt] at h
    injection h with h1
    injection h1 with h2 h3
    rw [← h2]
    simp [EventTree.leq]
  | case8 il ir n hil hir hnone ihr ihl =>
    intro e' c h
    rw [Stamp.growRec, if_neg hil, if_neg hir] at h
    rcases hgr : Stamp.growRec ir (.leaf 0) with _ | ⟨gr, cgr⟩ <;>
      rcases hgl : Stamp.growRec il (.leaf 0) with _ | ⟨gl, cgl⟩ <;>
      simp only [hgr, hgl] at h <;> try cases h
    exact absurd (hnone gr cgr gl cgl hgr hgl) (by simp)
  | case9 ir n l r ih =>
    intro e' c h
    rw [Stamp.growRec, if_pos rfl] at h
    rcases hg : Stamp.growRec ir r with _ | ⟨g, cg⟩ <;> rw [hg] at h
    · cases h
    · simp only [Option.map_some'] at h
      injection h with h1
      injection h1 with h2 h3
      rw [← h2]
      rw [EventTree.leq]
      have h1 := EventTree.leq_refl (l.lift n)
      have h2 : (r.lift n).leq (g.lift n) = true := by
        rw [EventTree.leq_lift_iff]
        exact ih g cg hg
      simp [h1, h2]
  | case10 il n l r hil ih =>
    intro e' c h
    rw [Stamp.growRec, if_neg hil, if_pos rfl] at h
    rcases hg : Stamp.growRec il l with _ | ⟨g, cg⟩ <;> rw [hg] at h
    · cases h
    · simp only [Option.map_some'] at h
      injection h with h1
      injection h1 with h2 h3
      rw [← h2]
      rw [EventTree.leq]
      have h1 : (l.lift n).leq (g.lift n) = true := by
        rw [EventTree.leq_lift_iff]
        exact ih g cg hg
      have h2 := EventTree.leq_refl (r.lift n)
      simp [h1, h2]
  | case11 il ir n l r hil hir er' cr el' cl hgl hgr hlt ihr ihl =>
    intro e' c h
    rw [Stamp.growRec, if_neg hil, if_neg hir] at h
    simp only [hgr, hgl] at h
    rw [if_pos hlt] at h
    injection h with h1
    injection h1 with h2 h3
    rw [← h2]
    rw [EventTree.leq]
    have h1 : (l.lift n).leq (el'.lift n) = true := by
      rw [EventTree.leq_lift_iff]
      exact ihl el' cl hgl
    have h2 := EventTree.leq_refl (r.lift n)
    simp [h1, h2]
  | case12 il ir n l r hil hir er' cr el' cl hgl hgr hlt ihr ihl =>
    intro e' c h
    rw [Stamp.growRec, if_neg hil, if_neg hir] at h
    simp only [hgr, hgl] at h
    rw [if_neg hlt] at h
    injection h with h1
    injection h1 with h2 h3
    rw [← h2]
    rw [EventTree.leq]
    have h1 := EventTree.leq_refl (l.lift n)
    have h2 : (r.lift n).leq (er'.lift n) = true := by
      rw [EventTree.leq_lift_iff]
      exact ihr er' cr hgr
    simp [h1, h2]
  | case13 il ir n l r hil hir hnone ihr ihl =>
    intro e' c h
    rw [Stamp.growRec, if_neg hil, if_neg hir] at h
    rcases hgr : Stamp.growRec ir r with _ | ⟨gr, cgr⟩ <;>
      rcases hgl : Stamp.growRec il l with _ | ⟨gl, cgl⟩ <;>
      simp only [hgr, hgl] at h <;> try cases h
    exact absurd (hnone gr cgr gl cgl hgr hgl) (by simp)


theorem EventTree.eqLeaves_node_left (k : Nat) (x y : EventTree) (r : EventTree) :
    (EventTree.node k x y).eqLeaves r = false := by
  cases r <;> rfl

/-- An ownership tree that is neither `zero` nor `one` is a node. -/
theorem IdTree.node_of_ne (i : IdTree) (h0 : i ≠ IdTree.zero) (h1 : i ≠ IdTree.one) :
    ∃ a b, i = .node a b := by
  cases i with
  | leaf b =>
    cases b
    · exact absurd rfl h0
    · exact absurd rfl h1
  | node a b => exact ⟨a, b, rfl⟩

theorem EventTree.n_leaf (c : Nat) : (EventTree.leaf c).n = c := rfl

theorem EventTree.n_node (k : Nat) (x y : EventTree) : (EventTree.node k x y).n = k := rfl

theorem EventTree.minv_leaf (c : Nat) : (EventTree.leaf c).minv = c := rfl

/-- Master lemma for `grow`: on a normal, non-empty ownership tree whose
history is a leaf or a normal `fill` fixed point, `grow` succeeds, its result
is normal, the fully-owned leaf increments its event leaf, and a node
ownership tree leaves the root base and the tree minimum unchanged. -/
theorem Stamp.growRec_master : ∀ (i : IdTree) (e : EventTree),
    i.isNormB = true → i ≠ IdTree.zero →
    ((∃ k, e = .leaf k) ∨ (e.isNormB = true ∧ Stamp.fillRec i e = e)) →
    ∃ e' c, Stamp.growRec i e = some (e', c) ∧ e'.isNormB = true ∧
      (i = IdTree.one → ∃ k, e = EventTree.leaf k ∧ e' = EventTree.leaf (k + 1)) ∧
      (∀ il ir, i = .node il ir → e'.minv = e.minv ∧ ∃ a b, e' = .node e.n a b) := by
  intro i e
  induction i, e using Stamp.growRec.induct with
  | case1 n =>
    intro _ _ _
    refine ⟨.leaf (n + 1), Cost.zero, rfl, rfl, fun _ => ⟨n, rfl, rfl⟩, ?_⟩
    intro il ir h
    exact absurd h (by simp)
  | case2 n =>
    intro _ h0 _
    exact absurd rfl h0
  | case3 b n l r =>
    intro _ h0 hfe
    cases b with
    | false => exact absurd rfl h0
    | true =>
      rcases hfe with ⟨k, hk⟩ | ⟨_, hfix⟩
      · cases hk
      · simp [Stamp.fillRec] at hfix
  | case4 ir n ih =>
    intro hni _ _
    obtain ⟨hNil, hNir, hneI⟩ := IdTree.isNormB_node_partsI _ _ hni
    have hir0 : ir ≠ IdTree.zero := by
      intro h
      rw [h] at hneI
      simp [IdTree.eqLeavesI, IdTree.zero] at hneI
    obtain ⟨g, cg, hg, hNFg, honeg, hnodeg⟩ := ih hNir hir0 (.inl ⟨0, rfl⟩)
    refine ⟨.node n (.leaf 0) g, cg.inc.shift, ?_, ?_, ?_, ?_⟩
    · rw [Stamp.growRec, if_pos rfl, hg]; rfl
    · refine EventTree.isNormB_node_intro _ _ _ rfl hNFg ?_ ?_
      · rw [EventTree.n_leaf]; omega
      · by_cases hio : ir = IdTree.one
        · obtain ⟨k, hk, hgk⟩ := honeg hio
          injection hk with hk0
          rw [hgk, ← hk0]
          decide
        · obtain ⟨a', b', hab⟩ := IdTree.node_of_ne ir hir0 hio
          obtain ⟨_, a, b, hgab⟩ := hnodeg a' b' hab
          rw [hgab]
          exact EventTree.eqLeaves_node_right _ _ _ _
    · intro h; exact absurd h (by simp [IdTree.one])
    · intro il' ir' h
      refine ⟨?_, .leaf 0, g, rfl⟩
      simp only [EventTree.minv]
      omega
  | case5 il n hil ih =>
    intro hni _ _
    obtain ⟨hNil, hNir, hneI⟩ := IdTree.isNormB_node_partsI _ _ hni
    obtain ⟨g, cg, hg, hNFg, honeg, hnodeg⟩ := ih hNil hil (.inl ⟨0, rfl⟩)
    refine ⟨.node n g (.leaf 0), cg.inc.shift, ?_, ?_, ?_, ?_⟩
    · rw [Stamp.growRec, if_neg hil, if_pos rfl, hg]; rfl
    · refine EventTree.isNormB_node_intro _ _ _ hNFg rfl ?_ ?_
      · rw [EventTree.n_leaf]; omega
      · by_cases hio : il = IdTree.one
        · obtain ⟨k, hk, hgk⟩ := honeg hio
          injection hk with hk0
          rw [hgk, ← hk0]
          decide
        · obtain ⟨a', b', hab⟩ := IdTree.node_of_ne il hil hio
          obtain ⟨_, a, b, hgab⟩ := hnodeg a' b' hab
          rw [hgab]
          exact EventTree.eqLeaves_node_left _ _ _ _
    · intro h; exact absurd h (by simp [IdTree.one])
    · intro il' ir' h
      refine ⟨?_, g, .leaf 0, rfl⟩
      simp only [EventTree.minv]
      omega
  | case6 il ir n hil hir er' cr el' cl hgl hgr hlt ihr ihl =>
    intro hni _ _
    obtain ⟨hNil, hNir, hneI⟩ := IdTree.isNormB_node_partsI _ _ hni
    obtain ⟨gl, cgl, hgl2, hNFgl, honegl, hnodegl⟩ := ihl hNil hil (.inl ⟨0, rfl⟩)
    have h := hgl
    rw [hgl2] at h
    injection h with h1
    injection h1 with hge hce
    rw [hge] at hNFgl honegl hnodegl
    refine ⟨.node n el' (.leaf 0), cl.inc.shift, ?_, ?_, ?_, ?_⟩
    · rw [Stamp.growRec, if_neg hil, if_neg hir]
      simp only [hgr, hgl]
      rw [if_pos hlt]
    · refine EventTree.isNormB_node_intro _ _ _ hNFgl rfl ?_ ?_
      · rw [EventTree.n_leaf]; omega
      · by_cases hio : il = IdTree.one
        · obtain ⟨k, hk, hgk⟩ := honegl hio
          injection hk with hk0
          rw [hgk, ← hk0]
          decide
        · obtain ⟨a', b', hab⟩ := IdTree.node_of_ne il hil hio
          obtain ⟨_, a, b, hgab⟩ := hnodegl a' b' hab
          rw [hgab]
          exact EventTree.eqLeaves_node_left _ _ _ _
    · intro h2; exact absurd h2 (by simp [IdTree.one])
    · intro il' ir' h2
      refine ⟨?_, el', .leaf 0, rfl⟩
      simp only [EventTree.minv]
      omega
  | case7 il ir n hil hir er' cr el' cl hgl hgr hlt ihr ihl =>
    intro hni _ _
    obtain ⟨hNil, hNir, hneI⟩ := IdTree.isNormB_node_partsI _ _ hni
    obtain ⟨gr, cgr, hgr2, hNFgr, honegr, hnodegr⟩ := ihr hNir hir (.inl ⟨0, rfl⟩)
    have h := hgr
    rw [hgr2] at h
    injection h with h1
    injection h1 with hge hce
    rw [hge] at hNFgr honegr hnodegr
    refine ⟨.node n (.leaf 0) er', cr.inc.shift, ?_, ?_, ?_, ?_⟩
    · rw [Stamp.growRec, if_neg hil, if_neg hir]
      simp only [hgr, hgl]
      rw [if_neg hlt]
    · refine EventTree.isNormB_node_intro _ _ _ rfl hNFgr ?_ ?_
      · rw [EventTree.n_leaf]; omega
      · by_cases hio : ir = IdTree.one
        · obtain ⟨k, hk, hgk⟩ := honegr hio
          injection hk with hk0
          rw [hgk, ← hk0]
          decide
        · obtain ⟨a', b', hab⟩ := IdTree.node_of_ne ir hir hio
          obtain ⟨_, a, b, hgab⟩ := hnodegr a' b' hab
          rw [hgab]
          exact EventTree.eqLeaves_node_right _ _ _ _
    · intro h2; exact absurd h2 (by simp [IdTree.one])
    · intro il' ir' h2
      refine ⟨?_, .leaf 0, er', rfl⟩
      simp only [EventTree.minv]
      omega
  | case8 il ir n hil hir hnone ihr ihl =>
    intro hni _ _
    obtain ⟨hNil, hNir, hneI⟩ := IdTree.isNormB_node_partsI _ _ hni
    obtain ⟨gl, cgl, hgl2, _, _, _⟩ := ihl hNil hil (.inl ⟨0, rfl⟩)
    obtain ⟨gr, cgr, hgr2, _, _, _⟩ := ihr hNir hir (.inl ⟨0, rfl⟩)
    exact (hnone gr cgr gl cgl hgr2 hgl2).elim
  | case9 ir n l r ih =>
    intro hni _ hfe
    obtain ⟨hNil, hNir, hneI⟩ := IdTree.isNormB_node_partsI _ _ hni
    have hir0 : ir ≠ IdTree.zero := by
      intro h
      rw [h] at hneI
      simp [IdTree.eqLeavesI, IdTree.zero] at hneI
    rcases hfe with ⟨k, hk⟩ | ⟨hNFe, hfix⟩
    · cases hk
    · obtain ⟨hNFl, hNFr, hmin, hneLR⟩ := EventTree.isNormB_node_parts n l r hNFe
      have hminvl := EventTree.minv_n_of_isNormB l hNFl
      have hminvr := EventTree.minv_n_of_isNormB r hNFr
      by_cases hio : ir = IdTree.one
      · subst hio
        obtain ⟨c, hrc, _, hminvrc⟩ :=
          Stamp.fill_fix_right_one IdTree.zero n l r (by decide) hfix
        subst hrc
        obtain ⟨g, cg, hg, hNFg, honeg, _⟩ := ih hNir hir0 (.inl ⟨c, rfl⟩)
        obtain ⟨k2, hk2, hgk⟩ := honeg rfl
        injection hk2 with hk2c
        subst hgk
        rw [EventTree.n_leaf] at hmin
        have hln0 : l.n = 0 := by
          rw [hminvl] at hminvrc
          omega
        refine ⟨.node n l (.leaf (k2 + 1)), cg.inc, ?_, ?_, ?_, ?_⟩
        · rw [Stamp.growRec, if_pos rfl, hg]; rfl
        · refine EventTree.isNormB_node_intro _ _ _ hNFl rfl ?_ ?_
          · rw [EventTree.n_leaf]; omega
          · cases l with
            | leaf v =>
              rw [EventTree.n_leaf] at hln0
              have hvne : v ≠ k2 + 1 := by omega
              simp [EventTree.eqLeaves, hvne]
            | node k3 x y => exact EventTree.eqLeaves_node_left _ _ _ _
        · intro h2; exact absurd h2 (by simp [IdTree.one])
        · intro il' ir' h2
          refine ⟨?_, l, .leaf (k2 + 1), rfl⟩
          simp only [EventTree.minv]
          rw [hminvl]
          omega
      · obtain ⟨_, hfr⟩ :=
          Stamp.fill_fix_else IdTree.zero ir n l r (by decide) hio hfix
        obtain ⟨g, cg, hg, hNFg, _, hnodeg⟩ := ih hNir hir0 (.inr ⟨hNFr, hfr⟩)
        obtain ⟨a', b', hab⟩ := IdTree.node_of_ne ir hir0 hio
        obtain ⟨hgm, a, b, hgab⟩ := hnodeg a' b' hab
        refine ⟨.node n l g, cg.inc, ?_, ?_, ?_, ?_⟩
        · rw [Stamp.growRec, if_pos rfl, hg]; rfl
        · refine EventTree.isNormB_node_intro _ _ _ hNFl hNFg ?_ ?_
          · rw [hgab, EventTree.n_node]
            exact hmin
          · rw [hgab]
            exact EventTree.eqLeaves_node_right _ _ _ _
        · intro h2; exact absurd h2 (by simp [IdTree.one])
        · intro il' ir' h2
          refine ⟨?_, l, g, rfl⟩
          simp only [EventTree.minv]
          rw [hgm]
  | case10 il n l r hil ih =>
    intro hni _ hfe
    obtain ⟨hNil, hNir, hneI⟩ := IdTree.isNormB_node_partsI _ _ hni
    rcases hfe with ⟨k, hk⟩ | ⟨hNFe, hfix⟩
    · cases hk
    · obtain ⟨hNFl, hNFr, hmin, hneLR⟩ := EventTree.isNormB_node_parts n l r hNFe
      have hminvl := EventTree.minv_n_of_isNormB l hNFl
      have hminvr := EventTree.minv_n_of_isNormB r hNFr
      by_cases hio : il = IdTree.one
      · subst hio
        obtain ⟨c, hlc, _, hminvlc⟩ := Stamp.fill_fix_left_one IdTree.zero n l r hfix
        subst hlc
        obtain ⟨g, cg, hg, hNFg, honeg, _⟩ := ih hNil hil (.inl ⟨c, rfl⟩)
        obtain ⟨k2, hk2, hgk⟩ := honeg rfl
        injection hk2 with hk2c
        subst hgk
        rw [EventTree.n_leaf] at hmin
        have hrn0 : r.n = 0 := by
          rw [hminvr] at hminvlc
          omega
        refine ⟨.node n (.leaf (k2 + 1)) r, cg.inc, ?_, ?_, ?_, ?_⟩
        · rw [Stamp.growRec, if_neg hil, if_pos rfl, hg]; rfl
        · refine EventTree.isNormB_node_intro _ _ _ rfl hNFr ?_ ?_
          · rw [EventTree.n_leaf]; omega
          · cases r with
            | leaf v =>
              rw [EventTree.n_leaf] at hrn0
              have hvne : k2 + 1 ≠ v := by omega
              simp [EventTree.eqLeaves, hvne]
            | node k3 x y => exact EventTree.eqLeaves_node_right _ _ _ _
        · intro h2; exact absurd h2 (by simp [IdTree.one])
        · intro il' ir' h2
          refine ⟨?_, .leaf (k2 + 1), r, rfl⟩
          simp only [EventTree.minv]
          rw [hminvr]
          omega
      · obtain ⟨hfl, _⟩ := Stamp.fill_fix_else il IdTree.zero n l r hio (by decide) hfix
        obtain ⟨g, cg, hg, hNFg, _, hnodeg⟩ := ih hNil hil (.inr ⟨hNFl, hfl⟩)
        obtain ⟨a', b', hab⟩ := IdTree.node_of_ne il hil hio
        obtain ⟨hgm, a, b, hgab⟩ := hnodeg a' b' hab
        refine ⟨.node n g r, cg.inc, ?_, ?_, ?_, ?_⟩
        · rw [Stamp.growRec, if_neg hil, if_pos rfl, hg]; rfl
        · refine EventTree.isNormB_node_intro _ _ _ hNFg hNFr ?_ ?_
          · rw [hgab, EventTree.n_node]
            exact hmin
          · rw [hgab]
            exact EventTree.eqLeaves_node_left _ _ _ _
        · intro h2; exact absurd h2 (by simp [IdTree.one])
        · intro il' ir' h2
          refine ⟨?_, g, r, rfl⟩
          simp only [EventTree.minv]
          rw [hgm]
  | case11 il ir n l r hil hir er' cr el' cl hgl hgr hlt ihr ihl =>
    intro hni _ hfe
    obtain ⟨hNil, hNir, hneI⟩ := IdTree.isNormB_node_partsI _ _ hni
    rcases hfe with ⟨k, hk⟩ | ⟨hNFe, hfix⟩
    · cases hk
    · obtain ⟨hNFl, hNFr, hmin, hneLR⟩ := EventTree.isNormB_node_parts n l r hNFe
      have hminvl := EventTree.minv_n_of_isNormB l hNFl
      have hminvr := EventTree.minv_n_of_isNormB r hNFr
      by_cases hio : il = IdTree.one
      · subst hio
        obtain ⟨c, hlc, _, hminvlc⟩ := Stamp.fill_fix_left_one ir n l r hfix
        subst hlc
        obtain ⟨g, cg, hg2, hNFg, honeg, _⟩ := ihl hNil hil (.inl ⟨c, rfl⟩)
        obtain ⟨k2, hk2, hgk⟩ := honeg rfl
        injection hk2 with hk2c
        subst hgk
        have h := hgl
        rw [hg2] at h
        injection h with h1
        injection h1 with hge hce
        rw [EventTree.n_leaf] at hmin
        have hrn0 : r.n = 0 := by
          rw [hminvr] at hminvlc
          omega
        refine ⟨.node n el' r, cl.inc, ?_, ?_, ?_, ?_⟩
        · rw [Stamp.growRec, if_neg hil, if_neg hir]
          simp only [hgr, hgl]
          rw [if_pos hlt]
        · refine EventTree.isNormB_node_intro _ _ _ ?_ hNFr ?_ ?_
          · rw [← hge]; rfl
          · rw [← hge, EventTree.n_leaf]; omega
          · rw [← hge]
            cases r with
            | leaf v =>
              rw [EventTree.n_leaf] at hrn0
              have hvne : k2 + 1 ≠ v := by omega
              simp [EventTree.eqLeaves, hvne]
            | node k3 x y => exact EventTree.eqLeaves_node_right _ _ _ _
        · intro h2; exact absurd h2 (by simp [IdTree.one])
        · intro il' ir' h2
          refine ⟨?_, el', r, rfl⟩
          simp only [EventTree.minv]
          rw [← hge, EventTree.minv_leaf, hminvr]
          omega
      · by_cases hio2 : ir = IdTree.one
        · subst hio2
          obtain ⟨c, hrc, hflx, _⟩ := Stamp.fill_fix_right_one il n l r hio hfix
          subst hrc
          obtain ⟨g, cg, hg2, hNFg, _, hnodeg⟩ := ihl hNil hil (.inr ⟨hNFl, hflx⟩)
          obtain ⟨a', b', hab⟩ := IdTree.node_of_ne il hil hio
          obtain ⟨hgm, a, b, hgab⟩ := hnodeg a' b' hab
          have h := hgl
          rw [hg2] at h
          injection h with h1
          injection h1 with hge hce
          rw [EventTree.n_leaf] at hmin
          refine ⟨.node n el' (.leaf c), cl.inc, ?_, ?_, ?_, ?_⟩
          · rw [Stamp.growRec, if_neg hil, if_neg hir]
            simp only [hgr, hgl]
            rw [if_pos hlt]
          · refine EventTree.isNormB_node_intro _ _ _ ?_ rfl ?_ ?_
            · rw [← hge]; exact hNFg
            · rw [← hge, hgab, EventTree.n_node, EventTree.n_leaf]
              exact hmin
            · rw [← hge, hgab]
              exact EventTree.eqLeaves_node_left _ _ _ _
          · intro h2; exact absurd h2 (by simp [IdTree.one])
          · intro il' ir' h2
            refine ⟨?_, el', .leaf c, rfl⟩
            simp only [EventTree.minv]
            rw [← hge, hgm]
        · obtain ⟨hflx, hfrx⟩ := Stamp.fill_fix_else il ir n l r hio hio2 hfix
          obtain ⟨g, cg, hg2, hNFg, _, hnodeg⟩ := ihl hNil hil (.inr ⟨hNFl, hflx⟩)
          obtain ⟨a', b', hab⟩ := IdTree.node_of_ne il hil hio
          obtain ⟨hgm, a, b, hgab⟩ := hnodeg a' b' hab
          have h := hgl
          rw [hg2] at h
          injection h with h1
          injection h1 with hge hce
          refine ⟨.node n el' r, cl.inc, ?_, ?_, ?_, ?_⟩
          · rw [Stamp.growRec, if_neg hil, if_neg hir]
            simp only [hgr, hgl]
            rw [if_pos hlt]
          · refine EventTree.isNormB_node_intro _ _ _ ?_ hNFr ?_ ?_
            · rw [← hge]; exact hNFg
            · rw [← hge, hgab, EventTree.n_node]
              exact hmin
            · rw [← hge, hgab]
              exact EventTree.eqLeaves_node_left _ _ _ _
          · intro h2; exact absurd h2 (by simp [IdTree.one])
          · intro il' ir' h2
            refine ⟨?_, el', r, rfl⟩
            simp only [EventTree.minv]
            rw [← hge, hgm]
  | case12 il ir n l r hil hir er' cr el' cl hgl hgr hlt ihr ihl =>
    intro hni _ hfe
    obtain ⟨hNil, hNir, hneI⟩ := IdTree.isNormB_node_partsI _ _ hni
    rcases hfe with ⟨k, hk⟩ | ⟨hNFe, hfix⟩
    · cases hk
    · obtain ⟨hNFl, hNFr, hmin, hneLR⟩ := EventTree.isNormB_node_parts n l r hNFe
      have hminvl := EventTree.minv_n_of_isNormB l hNFl
      have hminvr := EventTree.minv_n_of_isNormB r hNFr
      by_cases hio : il = IdTree.one
      · subst hio
        have hirone : ir ≠ IdTree.one := by
          intro h2
          rw [h2] at hneI
          simp [IdTree.eqLeavesI, IdTree.one] at hneI
        obtain ⟨c, hlc, hfr, _⟩ := Stamp.fill_fix_left_one ir n l r hfix
        subst hlc
        obtain ⟨g, cg, hg2, hNFg, _, hnodeg⟩ := ihr hNir hir (.inr ⟨hNFr, hfr⟩)
        obtain ⟨a', b', hab⟩ := IdTree.node_of_ne ir hir hirone
        obtain ⟨hgm, a, b, hgab⟩ := hnodeg a' b' hab
        have h := hgr
        rw [hg2] at h
        injection h with h1
        injection h1 with hge hce
        rw [EventTree.n_leaf] at hmin
        refine ⟨.node n (.leaf c) er', cr.inc, ?_, ?_, ?_, ?_⟩
        · rw [Stamp.growRec, if_neg hil, if_neg hir]
          simp only [hgr, hgl]
          rw [if_neg hlt]
        · refine EventTree.isNormB_node_intro _ _ _ rfl ?_ ?_ ?_
          · rw [← hge]; exact hNFg
          · rw [← hge, hgab, EventTree.n_node, EventTree.n_leaf]
            exact hmin
          · rw [← hge, hgab]
            exact EventTree.eqLeaves_node_right _ _ _ _
        · intro h2; exact absurd h2 (by simp [IdTree.one])
        · intro il' ir' h2
          refine ⟨?_, .leaf c, er', rfl⟩
          simp only [EventTree.minv]
          rw [← hge, hgm]
      · by_cases hio2 : ir = IdTree.one
        · subst hio2
          obtain ⟨c, hrc, hflx, hminvlc⟩ := Stamp.fill_fix_right_one il n l r hio hfix
          subst hrc
          obtain ⟨g, cg, hg2, hNFg, honeg, _⟩ := ihr hNir hir (.inl ⟨c, rfl⟩)
          obtain ⟨k2, hk2, hgk⟩ := honeg rfl
          injection hk2 with hk2c
          subst hgk
          have h := hgr
          rw [hg2] at h
          injection h with h1
          injection h1 with hge hce
          rw [EventTree.n_leaf] at hmin
          have hln0 : l.n = 0 := by
            rw [hminvl] at hminvlc
            omega
          refine ⟨.node n l er', cr.inc, ?_, ?_, ?_, ?_⟩
          · rw [Stamp.growRec, if_neg hil, if_neg hir]
            simp only [hgr, hgl]
            rw [if_neg hlt]
          · refine EventTree.isNormB_node_intro _ _ _ hNFl ?_ ?_ ?_
            · rw [← hge]; rfl
            · rw [← hge, EventTree.n_leaf]; omega
            · rw [← hge]
              cases l with
              | leaf v =>
                rw [EventTree.n_leaf] at hln0
                have hvne : v ≠ k2 + 1 := by omega
                simp [EventTree.eqLeaves, hvne]
              | node k3 x y => exact EventTree.eqLeaves_node_left _ _ _ _
          · intro h2; exact absurd h2 (by simp [IdTree.one])
          · intro il' ir' h2
            refine ⟨?_, l, er', rfl⟩
            simp only [EventTree.minv]
            rw [← hge, EventTree.minv_leaf, hminvl]
            omega
        · obtain ⟨hflx, hfrx⟩ := Stamp.fill_fix_else il ir n l r hio hio2 hfix
          obtain ⟨g, cg, hg2, hNFg, _, hnodeg⟩ := ihr hNir hir (.inr ⟨hNFr, hfrx⟩)
          obtain ⟨a', b', hab⟩ := IdTree.node_of_ne ir hir hio2
          obtain ⟨hgm, a, b, hgab⟩ := hnodeg a' b' hab
          have h := hgr
          rw [hg2] at h
          injection h with h1
          injection h1 with hge hce
          refine ⟨.node n l er', cr.inc, ?_, ?_, ?_, ?_⟩
          · rw [Stamp.growRec, if_neg hil, if_neg hir]
            simp only [hgr, hgl]
            rw [if_neg hlt]
          · refine EventTree.isNormB_node_intro _ _ _ hNFl ?_ ?_ ?_
            · rw [← hge]; exact hNFg
            · rw [← hge, hgab, EventTree.n_node]
              exact hmin
            · rw [← hge, hgab]
              exact EventTree.eqLeaves_node_right _ _ _ _
          · intro h2; exact absurd h2 (by simp [IdTree.one])
          · intro il' ir' h2
            refine ⟨?_, l, er', rfl⟩
            simp only [EventTree.minv]
            rw [← hge, hgm]
  | case13 il ir n l r hil hir hnone ihr ihl =>
    intro hni _ hfe
    obtain ⟨hNil, hNir, hneI⟩ := IdTree.isNormB_node_partsI _ _ hni
    rcases hfe with ⟨k, hk⟩ | ⟨hNFe, hfix⟩
    · cases hk
    · obtain ⟨hNFl, hNFr, hmin, hneLR⟩ := EventTree.isNormB_node_parts n l r hNFe
      by_cases hio : il = IdTree.one
      · subst hio
        obtain ⟨c, hlc, hfr, _⟩ := Stamp.fill_fix_left_one ir n l r hfix
        obtain ⟨gl, cgl, hgl2, _, _, _⟩ := ihl hNil hil (.inl ⟨c, hlc⟩)
        obtain ⟨gr, cgr, hgr2, _, _, _⟩ := ihr hNir hir (.inr ⟨hNFr, hfr⟩)
        exact (hnone gr cgr gl cgl hgr2 hgl2).elim
      · by_cases hio2 : ir = IdTree.one
        · subst hio2
          obtain ⟨c, hrc, hflx, _⟩ := Stamp.fill_fix_right_one il n l r hio hfix
          obtain ⟨gl, cgl, hgl2, _, _, _⟩ := ihl hNil hil (.inr ⟨hNFl, hflx⟩)
          obtain ⟨gr, cgr, hgr2, _, _, _⟩ := ihr hNir hir (.inl ⟨c, hrc⟩)
          exact (hnone gr cgr gl cgl hgr2 hgl2).elim
        · obtain ⟨hflx, hfrx⟩ := Stamp.fill_fix_else il ir n l r hio hio2 hfix
          obtain ⟨gl, cgl, hgl2, _, _, _⟩ := ihl hNil hil (.inr ⟨hNFl, hflx⟩)
          obtain ⟨gr, cgr, hgr2, _, _, _⟩ := ihr hNir hir (.inr ⟨hNFr, hfrx⟩)
          exact (hnone gr cgr gl cgl hgr2 hgl2).elim

/-! ## Facts about `join` -/

/-- `EventTree::join` is commutative on the nose: the argument-swap step of
the Rust code makes the two evaluation orders produce identical trees. -/
theorem EventTree.join_comm (a b : EventTree) : EventTree.join a b = EventTree.join b a := by
  induction a, b using EventTree.join.induct with
  | case1 n1 n2 => rw [EventTree.join, EventTree.join, Nat.max_comm]
  | case2 n n1 l r h ih1 ih2 =>
    rw [EventTree.join, EventTree.join, if_pos h, if_neg (by omega : ¬n1 > n)]
  | case3 n n1 l r h ih1 ih2 =>
    rw [EventTree.join, EventTree.join]
    by_cases h2 : n1 > n
    · rw [if_neg h, if_pos h2]
    · have hn : n1 = n := by omega
      subst hn
      rw [if_neg h, if_neg h2]
      simp only [Nat.sub_self, EventTree.lift_zero] at ih1 ih2 ⊢
      rw [ih1, ih2]
  | case4 n l r n1 h ih1 ih2 =>
    rw [EventTree.join, EventTree.join, if_pos h, if_neg (by omega : ¬n1 > n)]
  | case5 n l r n1 h ih1 ih2 =>
    rw [EventTree.join, EventTree.join]
    by_cases h2 : n1 > n
    · rw [if_neg h, if_pos h2]
    · have hn : n1 = n := by omega
      subst hn
      rw [if_neg h, if_neg h2]
      simp only [Nat.sub_self, EventTree.lift_zero] at ih1 ih2 ⊢
      rw [ih1, ih2]
  | case6 a a1 a2 b b1 b2 h ih1 ih2 =>
    rw [EventTree.join, EventTree.join, if_pos h, if_neg (by omega : ¬b > a)]
  | case7 a a1 a2 b b1 b2 h ih1 ih2 =>
    rw [EventTree.join, EventTree.join]
    by_cases h2 : b > a
    · rw [if_neg h, if_pos h2]
    · have hn : b = a := by omega
      subst hn
      rw [if_neg h, if_neg h2]
      simp only [Nat.sub_self, EventTree.lift_zero] at ih1 ih2 ⊢
      rw [ih1, ih2]

/-- Joining a history with itself yields its canonical form. -/
theorem EventTree.join_self (a : EventTree) : EventTree.join a a = a.norm := by
  induction a with
  | leaf n =>
    rw [EventTree.join, EventTree.norm]
    simp
  | node n l r ihl ihr =>
    rw [EventTree.join, if_neg (by omega : ¬n > n)]
    rw [Nat.sub_self, EventTree.lift_zero, EventTree.lift_zero]
    rw [ihl, ihr]
    calc (EventTree.node n l.norm r.norm).norm
        = EventTree.normNode n l.norm.norm r.norm.norm := by rw [EventTree.norm]
      _ = EventTree.normNode n l.norm r.norm := by
          rw [EventTree.norm_norm, EventTree.norm_norm]
      _ = (EventTree.node n l r).norm := by rw [EventTree.norm]

/-- The result of `EventTree::join` is always in canonical form. -/
theorem EventTree.join_isNormB (a b : EventTree) :
    (EventTree.join a b).isNormB = true := by
  cases a with
  | leaf n1 =>
    cases b with
    | leaf n2 => rw [EventTree.join]; rfl
    | node n2 l2 r2 =>
      rw [EventTree.join]
      split_ifs <;> exact EventTree.isNormB_norm _
  | node n1 l1 r1 =>
    cases b with
    | leaf n2 =>
      rw [EventTree.join]
      split_ifs <;> exact EventTree.isNormB_norm _
    | node n2 l2 r2 =>
      rw [EventTree.join]
      split_ifs <;> exact EventTree.isNormB_norm _


/-! ## Facts about `split` and `sum` -/

theorem IdTree.norm_node_congr {x x' y y' : IdTree} (hx : x.norm = x'.norm)
    (hy : y.norm = y'.norm) : (IdTree.node x y).norm = (IdTree.node x' y').norm := by
  rw [IdTree.norm, IdTree.norm, hx, hy]

/-- `split` always yields a node, and summing its halves recovers the input
up to canonicalisation. -/
theorem IdTree.split_sum (i : IdTree) :
    ∃ a b, i.split = some (.node a b) ∧
      ∃ m, a.sum b = some m ∧ m.norm = i.norm := by
  induction i with
  | leaf v =>
    cases v with
    | false => exact ⟨IdTree.zero, IdTree.zero, rfl, IdTree.zero, rfl, rfl⟩
    | true =>
      refine ⟨.node IdTree.one IdTree.zero, .node IdTree.zero IdTree.one, rfl,
        IdTree.one, ?_, rfl⟩
      rfl
  | node l r ihl ihr =>
    by_cases hl : l = IdTree.zero
    · subst hl
      obtain ⟨a, b, hsplit, m, hsum, hnorm⟩ := ihr
      refine ⟨.node IdTree.zero a, .node IdTree.zero b, ?_, ?_⟩
      · rw [IdTree.split, if_pos rfl, hsplit]
      · refine ⟨(IdTree.node IdTree.zero m).norm, ?_, ?_⟩
        · rw [IdTree.sum, hsum]; rfl
        · rw [IdTree.norm_normI]
          exact IdTree.norm_node_congr rfl hnorm
    · by_cases hr : r = IdTree.zero
      · subst hr
        obtain ⟨a, b, hsplit, m, hsum, hnorm⟩ := ihl
        refine ⟨.node a IdTree.zero, .node b IdTree.zero, ?_, ?_⟩
        · rw [IdTree.split, if_neg hl, if_pos rfl, hsplit]
        · refine ⟨(IdTree.node m IdTree.zero).norm, ?_, ?_⟩
          · rw [IdTree.sum, hsum]; rfl
          · rw [IdTree.norm_normI]
            exact IdTree.norm_node_congr hnorm rfl
      · refine ⟨.node l IdTree.zero, .node IdTree.zero r, ?_, ?_⟩
        · rw [IdTree.split, if_neg hl, if_neg hr]
        · refine ⟨(IdTree.node l r).norm, ?_, IdTree.norm_normI _⟩
          have h1 : l.sum IdTree.zero = some l := by
            cases l with
            | leaf v =>
              cases v with
              | false => exact absurd rfl hl
              | true => rfl
            | node x y => rfl
          have h2 : IdTree.zero.sum r = some r := by
            cases r with
            | leaf v => cases v <;> rfl
            | node x y => rfl
          rw [IdTree.sum, h1, h2]

theorem IdTree.isNormB_node_introI (l r : IdTree) (hl : l.isNormB = true)
    (hr : r.isNormB = true) (hne : l.eqLeavesI r = false) :
    (IdTree.node l r).isNormB = true := by
  simp [IdTree.isNormB, hl, hr, hne]

/-- `split` preserves canonical form and non-emptiness of the halves. -/
theorem IdTree.split_norm (i : IdTree) (hni : i.isNormB = true) :
    ∃ a b, i.split = some (.node a b) ∧ a.isNormB = true ∧ b.isNormB = true ∧
      (i ≠ IdTree.zero → a ≠ IdTree.zero ∧ b ≠ IdTree.zero) := by
  induction i with
  | leaf v =>
    cases v with
    | false =>
      exact ⟨IdTree.zero, IdTree.zero, rfl, rfl, rfl,
        fun h => absurd rfl h⟩
    | true =>
      exact ⟨.node IdTree.one IdTree.zero, .node IdTree.zero IdTree.one, rfl,
        by decide, by decide, fun _ => ⟨by decide, by decide⟩⟩
  | node l r ihl ihr =>
    obtain ⟨hNl, hNr, hneI⟩ := IdTree.isNormB_node_partsI _ _ hni
    by_cases hl : l = IdTree.zero
    · subst hl
      have hr0 : r ≠ IdTree.zero := by
        intro h
        rw [h] at hneI
        simp [IdTree.eqLeavesI, IdTree.zero] at hneI
      obtain ⟨a, b, hsplit, hNa, hNb, hnz⟩ := ihr hNr
      obtain ⟨ha0, hb0⟩ := hnz hr0
      refine ⟨.node IdTree.zero a, .node IdTree.zero b, ?_, ?_, ?_, ?_⟩
      · rw [IdTree.split, if_pos rfl, hsplit]
      · refine IdTree.isNormB_node_introI _ _ rfl hNa ?_
        cases a with
        | leaf v =>
          cases v with
          | false => exact absurd rfl ha0
          | true => rfl
        | node x y => rfl
      · refine IdTree.isNormB_node_introI _ _ rfl hNb ?_
        cases b with
        | leaf v =>
          cases v with
          | false => exact absurd rfl hb0
          | true => rfl
        | node x y => rfl
      · intro _
        exact ⟨by simp [IdTree.zero], by simp [IdTree.zero]⟩
    · by_cases hr : r = IdTree.zero
      · subst hr
        obtain ⟨a, b, hsplit, hNa, hNb, hnz⟩ := ihl hNl
        obtain ⟨ha0, hb0⟩ := hnz hl
        refine ⟨.node a IdTree.zero, .node b IdTree.zero, ?_, ?_, ?_, ?_⟩
        · rw [IdTree.split, if_neg hl, if_pos rfl, hsplit]
        · refine IdTree.isNormB_node_introI _ _ hNa rfl ?_
          cases a with
          | leaf v =>
            cases v with
            | false => exact absurd rfl ha0
            | true => rfl
          | node x y => rfl
        · refine IdTree.isNormB_node_introI _ _ hNb rfl ?_
          cases b with
          | leaf v =>
            cases v with
            | false => exact absurd rfl hb0
            | true => rfl
          | node x y => rfl
        · intro _
          exact ⟨by simp [IdTree.zero], by simp [IdTree.zero]⟩
      · refine ⟨.node l IdTree.zero, .node IdTree.zero r, ?_, ?_, ?_, ?_⟩
        · rw [IdTree.split, if_neg hl, if_neg hr]
        · refine IdTree.isNormB_node_introI _ _ hNl rfl ?_
          cases l with
          | leaf v =>
            cases v with
            | false => exact absurd rfl hl
            | true => rfl
          | node x y => rfl
        · refine IdTree.isNormB_node_introI _ _ rfl hNr ?_
          cases r with
          | leaf v =>
            cases v with
            | false => exact absurd rfl hr
            | true => rfl
          | node x y => rfl
        · intro _
          exact ⟨by simp [IdTree.zero], by simp [IdTree.zero]⟩

/-- When `sum` succeeds on canonical inputs, its result is canonical. -/
theorem IdTree.sum_isNormB (a b m : IdTree) (hna : a.isNormB = true)
    (hnb : b.isNormB = true) (h : a.sum b = some m) : m.isNormB = true := by
  cases a with
  | leaf va =>
    cases va with
    | false =>
      rw [IdTree.sum] at h
      injection h with h1
      rw [← h1]
      exact hnb
    | true =>
      cases b with
      | leaf vb =>
        cases vb with
        | false =>
          have h2 : some IdTree.one = some m := h
          injection h2 with h1
          rw [← h1]
          exact hna
        | true => cases h
      | node l2 r2 => cases h
  | node l1 r1 =>
    cases b with
    | leaf vb =>
      cases vb with
      | false =>
        have h2 : some (IdTree.node l1 r1) = some m := h
        injection h2 with h1
        rw [← h1]
        exact hna
      | true => cases h
    | node l2 r2 =>
      rw [IdTree.sum] at h
      rcases hsl : l1.sum l2 with _ | nl <;> rcases hsr : r1.sum r2 with _ | nr <;>
        simp only [hsl, hsr] at h <;> cases h
      exact IdTree.isNormB_normI _


/-! ## Codec round trip -/

theorem decodeIdTree_encode (i : IdTree) : decodeIdTree i.encode = some i := by
  induction i with
  | leaf b => cases b <;> decide
  | node l r ihl ihr =>
    rw [IdTree.encode, decodeIdTree, ihl, ihr]

theorem decodeEventTree_encode (e : EventTree) (hb : e.u32Bounded = true) :
    decodeEventTree e.encode = some e := by
  induction e with
  | leaf n =>
    rw [EventTree.u32Bounded] at hb
    have hn : n < 4294967296 := of_decide_eq_true hb
    rw [EventTree.encode, decodeEventTree,
      if_pos (⟨Int.natCast_nonneg n, by exact_mod_cast hn⟩ :
        (0 : Int) ≤ (n : Int) ∧ (n : Int) < 4294967296)]
    simp
  | node n l r ihl ihr =>
    rw [EventTree.u32Bounded] at hb
    simp only [Bool.and_eq_true] at hb
    obtain ⟨⟨hn, hbl⟩, hbr⟩ := hb
    have hn' : n < 4294967296 := of_decide_eq_true hn
    rw [EventTree.encode, decodeEventTree,
      if_pos (⟨Int.natCast_nonneg n, by exact_mod_cast hn'⟩ :
        (0 : Int) ≤ (n : Int) ∧ (n : Int) < 4294967296)]
    rw [ihl hbl, ihr hbr]
    simp

theorem decodeStamp_encode (s : Stamp) (hb : s.e.u32Bounded = true) :
    decodeStamp s.encode = some s := by
  obtain ⟨i, e⟩ := s
  have h1 : decodeStamp (Stamp.encode ⟨i, e⟩) =
      match decodeIdTree i.encode, decodeEventTree e.encode with
      | some i', some e' => some ⟨i', e'⟩
      | _, _ => none := rfl
  rw [h1, decodeIdTree_encode, decodeEventTree_encode e hb]


/-! ## Progress and the reachability invariant -/

theorem Stamp.growRec_zero_none (e : EventTree) :
    Stamp.growRec IdTree.zero e = none := by
  cases e <;> rfl

theorem Stamp.fillRec_zero (e : EventTree) : Stamp.fillRec IdTree.zero e = e := rfl

/-- On a canonical stamp with non-empty ownership, `event` returns a stamp
with the same ownership and a canonical, strictly advanced history. -/
theorem Stamp.event_progress (s : Stamp) (hni : s.i.isNormB = true)
    (hne : s.e.isNormB = true) (h0 : s.i ≠ IdTree.zero) :
    ∃ t, s.event = some t ∧ t.i = s.i ∧ t.e.isNormB = true ∧
      s.e.leq t.e = true ∧ t.e ≠ s.e := by
  by_cases hf : s.fill ≠ s.e
  · refine ⟨⟨s.i, s.fill⟩, ?_, rfl, ?_, ?_, hf⟩
    · rw [Stamp.event, if_pos hf]
    · rcases Stamp.fillRec_norm_or_eq s.i s.e with h | h
      · exact absurd h hf
      · exact h
    · exact Stamp.fillRec_leq s.i s.e
  · rw [not_not] at hf
    obtain ⟨e', c, hg, hN, _, _⟩ :=
      Stamp.growRec_master s.i s.e hni h0 (.inr ⟨hne, hf⟩)
    refine ⟨⟨s.i, e'⟩, ?_, rfl, hN, ?_, ?_⟩
    · rw [Stamp.event, if_neg (by rw [not_not]; exact hf)]
      rw [Stamp.grow, hg]
      rfl
    · exact Stamp.growRec_leq s.i s.e e' c hg
    · exact Stamp.growRec_ne s.i s.e e' c hg

/-- Every reachable stamp has both trees in canonical form. -/
theorem Reach_isNormB (s : Stamp) (h : Reach s) :
    s.i.isNormB = true ∧ s.e.isNormB = true := by
  induction h with
  | seed => exact ⟨rfl, rfl⟩
  | forkL s a b hs hf ih =>
    obtain ⟨hi, he⟩ := ih
    obtain ⟨a', b', hsplit, hNa, hNb, _⟩ := IdTree.split_norm s.i hi
    rw [Stamp.fork, hsplit] at hf
    injection hf with h1
    injection h1 with h2 h3
    rw [← h2]
    exact ⟨hNa, he⟩
  | forkR s a b hs hf ih =>
    obtain ⟨hi, he⟩ := ih
    obtain ⟨a', b', hsplit, hNa, hNb, _⟩ := IdTree.split_norm s.i hi
    rw [Stamp.fork, hsplit] at hf
    injection hf with h1
    injection h1 with h2 h3
    rw [← h3]
    exact ⟨hNb, he⟩
  | event s t hs he ih =>
    obtain ⟨hi, hee⟩ := ih
    by_cases h0 : s.i = IdTree.zero
    · rw [Stamp.event] at he
      rw [show s.fill = s.e from by rw [Stamp.fill, h0, Stamp.fillRec_zero]] at he
      rw [if_neg (by simp), Stamp.grow, h0, Stamp.growRec_zero_none] at he
      cases he
    · obtain ⟨t', he', hti, htN, _, _⟩ := Stamp.event_progress s hi hee h0
      rw [he'] at he
      injection he with h1
      rw [← h1, hti]
      exact ⟨hi, htN⟩
  | peekL s hs ih => exact ⟨rfl, ih.2⟩
  | peekR s hs ih => exact ih
  | join a b t ha hb hj iha ihb =>
    rw [Stamp.join] at hj
    rcases hsum : a.i.sum b.i with _ | si <;> rw [hsum] at hj
    · cases hj
    · simp only [Option.map_some'] at hj
      injection hj with h1
      rw [← h1]
      exact ⟨IdTree.sum_isNormB a.i b.i si iha.1 ihb.1 hsum,
        EventTree.join_isNormB a.e b.e⟩


/-- The only canonical ownership tree that owns nothing is `zero`. -/
theorem IdTree.zero_of_isEmptyB (i : IdTree) (he : i.isEmptyB = true)
    (hn : i.isNormB = true) : i = IdTree.zero := by
  induction i with
  | leaf v =>
    cases v
    · rfl
    · simp [IdTree.isEmptyB] at he
  | node l r ihl ihr =>
    rw [IdTree.isEmptyB] at he
    simp only [Bool.and_eq_true] at he
    obtain ⟨hNl, hNr, hne⟩ := IdTree.isNormB_node_partsI _ _ hn
    rw [ihl he.1 hNl, ihr he.2 hNr] at hne
    simp [IdTree.eqLeavesI, IdTree.zero] at hne

/-- `sum` succeeds on canonical, disjoint ownership trees: the
`unreachable!()` arms need an owned leaf against a non-`zero` tree, which
disjointness of canonical trees rules out. -/
theorem IdTree.sum_some : ∀ (a : IdTree), a.isNormB = true →
    ∀ b, b.isNormB = true → a.disjointB b = true → ∃ m, a.sum b = some m := by
  intro a
  induction a with
  | leaf va =>
    cases va with
    | false =>
      intro _ b _ _
      refine ⟨b, ?_⟩
      cases b with
      | leaf v => cases v <;> rfl
      | node x y => rfl
    | true =>
      intro _ b hnb hd
      cases b with
      | leaf vb =>
        cases vb with
        | false => exact ⟨IdTree.one, rfl⟩
        | true => simp [IdTree.disjointB, IdTree.isEmptyB] at hd
      | node l2 r2 =>
        have hd' : (IdTree.node l2 r2).isEmptyB = true := hd
        exact absurd (IdTree.zero_of_isEmptyB _ hd' hnb) (by simp [IdTree.zero])
  | node l1 r1 ihl ihr =>
    intro hna b hnb hd
    obtain ⟨hNl1, hNr1, _⟩ := IdTree.isNormB_node_partsI _ _ hna
    cases b with
    | leaf vb =>
      cases vb with
      | false => exact ⟨.node l1 r1, rfl⟩
      | true =>
        have hd' : (IdTree.node l1 r1).isEmptyB = true := hd
        exact absurd (IdTree.zero_of_isEmptyB _ hd' hna) (by simp [IdTree.zero])
    | node l2 r2 =>
      obtain ⟨hNl2, hNr2, _⟩ := IdTree.isNormB_node_partsI _ _ hnb
      have hd' : (l1.disjointB l2 && r1.disjointB r2) = true := hd
      simp only [Bool.and_eq_true] at hd'
      obtain ⟨ml, hml⟩ := ihl hNl1 l2 hNl2 hd'.1
      obtain ⟨mr, hmr⟩ := ihr hNr1 r2 hNr2 hd'.2
      refine ⟨(IdTree.node ml mr).norm, ?_⟩
      rw [IdTree.sum, hml, hmr]

/-- `fork` is total: the inner destructuring of `split`'s result never hits
its `unreachable!()` arm. -/
theorem Stamp.fork_total (s : Stamp) : ∃ l r, s.fork = some (l, r) := by
  obtain ⟨a, b, hsplit, _⟩ := IdTree.split_sum s.i
  exact ⟨⟨a, s.e⟩, ⟨b, s.e⟩, by rw [Stamp.fork, hsplit]⟩

/-- `join` succeeds on stamps with canonical, disjoint ownership trees. -/
theorem Stamp.join_some (a b : Stamp) (hna : a.i.isNormB = true)
    (hnb : b.i.isNormB = true) (hd : a.i.disjointB b.i = true) :
    ∃ t, Stamp.join a b = some t := by
  obtain ⟨m, hm⟩ := IdTree.sum_some a.i hna b.i hnb hd
  exact ⟨⟨m, a.e.join b.e⟩, by rw [Stamp.join, hm]; rfl⟩


/-! ## The claims -/

/-- Claim C1, counterexample: `event` on a stamp whose ownership is the
not-owned leaf — exactly the reader returned by `peek` — hits the
`unreachable!()` panic in `grow` (modelled as `none`), so the advance verb is
not total on well-formed stamps. -/
theorem C1_counterexample : Stamp.event ⟨IdTree.zero, .leaf 0⟩ = none := by
  decide

/-- Claim C1, amended: fork, snapshot and the leq test are total; merge is
total on stamps with canonical, disjoint ownership trees but panics on
overlapping owners; advance always fails on a stamp with the not-owned leaf
ownership (the reader produced by snapshot), and succeeds on every reachable
stamp with non-empty ownership. -/
theorem C1_amended :
    (∀ s : Stamp, ∃ l r, s.fork = some (l, r)) ∧
    (∀ s : Stamp, s.peek = (⟨IdTree.zero, s.e⟩, s)) ∧
    (∀ a b : Stamp, a.leq b = true ∨ a.leq b = false) ∧
    (∀ a b : Stamp, a.i.isNormB = true → b.i.isNormB = true →
      a.i.disjointB b.i = true → ∃ t, Stamp.join a b = some t) ∧
    (∀ e : EventTree, Stamp.event ⟨IdTree.zero, e⟩ = none) ∧
    (∀ s : Stamp, Reach s → s.i ≠ IdTree.zero → ∃ t, s.event = some t) := by
  refine ⟨Stamp.fork_total, fun s => rfl, ?_, Stamp.join_some, ?_, ?_⟩
  · intro a b
    cases h : Stamp.leq a b
    · exact .inr rfl
    · exact .inl rfl
  · intro e
    have hfill : Stamp.fill ⟨IdTree.zero, e⟩ = e := rfl
    rw [Stamp.event, hfill, if_neg (show ¬e ≠ e from fun h => h rfl)]
    rw [show Stamp.grow ⟨IdTree.zero, e⟩ = none from Stamp.growRec_zero_none e]
    rfl
  · intro s hR h0
    obtain ⟨hi, he⟩ := Reach_isNormB s hR
    obtain ⟨t, ht, _⟩ := Stamp.event_progress s hi he h0
    exact ⟨t, ht⟩

/-- Witness for the amended C1 at concrete stamps. -/
theorem C1_amended_witness :
    (∃ l r, Stamp.seed.fork = some (l, r)) ∧
    Stamp.seed.peek = (⟨IdTree.zero, Stamp.seed.e⟩, Stamp.seed) ∧
    (Stamp.leq Stamp.seed Stamp.seed = true ∨
      Stamp.leq Stamp.seed Stamp.seed = false) ∧
    (∃ t, Stamp.join ⟨IdTree.one, .leaf 0⟩ ⟨IdTree.zero, .leaf 0⟩ = some t) ∧
    Stamp.event ⟨IdTree.zero, .leaf 3⟩ = none ∧
    (∃ t, Stamp.seed.event = some t) :=
  ⟨C1_amended.1 Stamp.seed, C1_amended.2.1 Stamp.seed,
   C1_amended.2.2.1 Stamp.seed Stamp.seed,
   C1_amended.2.2.2.1 ⟨IdTree.one, .leaf 0⟩ ⟨IdTree.zero, .leaf 0⟩
     (by decide) (by decide) (by decide),
   C1_amended.2.2.2.2.1 (.leaf 3),
   C1_amended.2.2.2.2.2 Stamp.seed Reach.seed (by decide)⟩

/-- Claim C2, counterexample: on the fully-owned stamp with history
`Node(0, 1, 0)` the fill pass returns `Leaf 1`, raising the count at an
owned position (the all-right point moves from 0 to 1) even though the claim
says owned positions are unchanged. -/
theorem C2_counterexample :
    Stamp.fill ⟨IdTree.one, .node 0 (.leaf 1) (.leaf 0)⟩ = .leaf 1 ∧
    IdTree.one.owns (fun _ => true) = true ∧
    (EventTree.node 0 (.leaf 1) (.leaf 0)).val (fun _ => true) = 0 ∧
    (EventTree.leaf 1).val (fun _ => true) = 1 := by
  exact ⟨by decide, rfl, rfl, rfl⟩

/-- Claim C2, amended: fill only ever raises counts (the input history stays
pointwise below it), it never exceeds the maximum already present, and
`event` uses the fill result whenever it differs from the current history. -/
theorem C2_amended :
    (∀ (i : IdTree) (e : EventTree), e.leq (Stamp.fillRec i e) = true) ∧
    (∀ (i : IdTree) (e : EventTree), (Stamp.fillRec i e).maxv = e.maxv) ∧
    (∀ s : Stamp, s.fill ≠ s.e → s.event = some ⟨s.i, s.fill⟩) :=
  ⟨Stamp.fillRec_leq, Stamp.fillRec_maxv,
   fun s hf => by rw [Stamp.event, if_pos hf]⟩

/-- Witness for the amended C2 at concrete stamps. -/
theorem C2_amended_witness :
    (EventTree.leaf 0).leq (Stamp.fillRec IdTree.one (.leaf 0)) = true ∧
    (Stamp.fillRec IdTree.one (.node 0 (.leaf 1) (.leaf 0))).maxv =
      (EventTree.node 0 (.leaf 1) (.leaf 0)).maxv ∧
    Stamp.event ⟨IdTree.one, .node 0 (.leaf 1) (.leaf 0)⟩ =
      some ⟨IdTree.one, Stamp.fill ⟨IdTree.one, .node 0 (.leaf 1) (.leaf 0)⟩⟩ :=
  ⟨C2_amended.1 IdTree.one (.leaf 0), C2_amended.2.1 IdTree.one _,
   C2_amended.2.2 ⟨IdTree.one, .node 0 (.leaf 1) (.leaf 0)⟩ (by decide)⟩

/-- Claim C3, counterexample: the wire integer `2` is not rejected as a
non-boolean ownership marker — the `u8` payload is silently coerced to the
not-owned leaf by the `i == 1` test. -/
theorem C3_counterexample : decodeIdTree (.num 2) = some (.leaf false) := by
  decide

/-- Claim C3, amended: every integer in `2..=255` is accepted and coerced to
the not-owned leaf; negative integers are rejected for both tree types, and
wrong array arity is rejected for both tree types (ownership arrays must have
length 2, event arrays length 3). -/
theorem C3_amended :
    (∀ n : Int, 2 ≤ n → n ≤ 255 → decodeIdTree (.num n) = some (.leaf false)) ∧
    (∀ n : Int, n < 0 → decodeIdTree (.num n) = none) ∧
    (∀ n : Int, n < 0 → decodeEventTree (.num n) = none) ∧
    (∀ js : List Json, js.length ≠ 2 → decodeIdTree (.arr js) = none) ∧
    (∀ js : List Json, js.length ≠ 3 → decodeEventTree (.arr js) = none) := by
  refine ⟨?_, ?_, ?_, ?_, ?_⟩
  · intro n h2 h255
    rw [decodeIdTree, if_pos (⟨by omega, h255⟩ : (0 : Int) ≤ n ∧ n ≤ 255)]
    have hne : (n == 1) = false := by
      have : ¬n = 1 := by omega
      simp [this]
    rw [hne]
  · intro n hn
    rw [decodeIdTree, if_neg (by omega : ¬((0 : Int) ≤ n ∧ n ≤ 255))]
  · intro n hn
    rw [decodeEventTree,
      if_neg (by omega : ¬((0 : Int) ≤ n ∧ n < 4294967296))]
  · intro js hlen
    rcases js with _ | ⟨a, _ | ⟨b, _ | ⟨c, t⟩⟩⟩
    · rfl
    · rfl
    · exact absurd rfl hlen
    · rfl
  · intro js hlen
    rcases js with _ | ⟨a, _ | ⟨b, _ | ⟨c, _ | ⟨d, t⟩⟩⟩⟩
    · rfl
    · rfl
    · cases b <;> rfl
    · exact absurd rfl hlen
    · cases b <;> rfl

/-- Witness for the amended C3 at concrete wire values. -/
theorem C3_amended_witness :
    decodeIdTree (.num 7) = some (.leaf false) ∧
    decodeIdTree (.num (-1)) = none ∧
    decodeEventTree (.num (-5)) = none ∧
    decodeIdTree (.arr []) = none ∧
    decodeEventTree (.arr [.num 0]) = none :=
  ⟨C3_amended.1 7 (by decide) (by decide), C3_amended.2.1 (-1) (by decide),
   C3_amended.2.2.1 (-5) (by decide), C3_amended.2.2.2.1 [] (by decide),
   C3_amended.2.2.2.2 [.num 0] (by decide)⟩

/-- Claim C4, counterexample: `leq` is not complete for the pointwise order —
on the non-canonical pair `Leaf 1` versus `Node(0, 5, 5)` the count function
of the first is everywhere below that of the second, yet `leq` answers
`false` because the mixed case compares only the bases. -/
theorem C4_counterexample :
    EventTree.leq (.leaf 1) (.node 0 (.leaf 5) (.leaf 5)) = false ∧
    ∀ p : Nat → Bool,
      (EventTree.leaf 1).val p ≤ (EventTree.node 0 (.leaf 5) (.leaf 5)).val p := by
  constructor
  · simp [EventTree.leq]
  · intro p
    cases hp : p 0 <;> simp [EventTree.val, hp]

/-- Claim C4, amended: `leq` is sound for pointwise domination on all trees,
and complete on canonical trees. -/
theorem C4_amended :
    (∀ a b : EventTree, a.leq b = true → ∀ p, a.val p ≤ b.val p) ∧
    (∀ a b : EventTree, a.isNormB = true → b.isNormB = true →
      (∀ p, a.val p ≤ b.val p) → a.leq b = true) :=
  ⟨fun a b h p => EventTree.leq_sound a b h p,
   fun a b ha hb h => EventTree.leq_complete a b ha hb h⟩

/-- Witness for the amended C4 at concrete trees. -/
theorem C4_amended_witness :
    (∀ p, (EventTree.leaf 0).val p ≤ (EventTree.leaf 1).val p) ∧
    EventTree.leq (.leaf 1) (.leaf 1) = true :=
  ⟨C4_amended.1 (.leaf 0) (.leaf 1) (by simp [EventTree.leq]),
   C4_amended.2 (.leaf 1) (.leaf 1) rfl rfl (fun p => le_refl _)⟩

/-- Claim C5, counterexample: the stamp `⟨Node(0,0), Leaf 0⟩` has non-empty
(non-leaf) ownership in the claim's sense, yet `event` hits the
`unreachable!()` panic instead of progressing. -/
theorem C5_counterexample :
    (IdTree.node IdTree.zero IdTree.zero) ≠ IdTree.zero ∧
    Stamp.event ⟨.node IdTree.zero IdTree.zero, .leaf 0⟩ = none := by
  exact ⟨by decide, by decide⟩

/-- Claim C5, amended: on every reachable stamp with non-empty ownership,
`event` succeeds, dominates the input, and changes the history. -/
theorem C5_amended (s : Stamp) (hR : Reach s) (h0 : s.i ≠ IdTree.zero) :
    ∃ t, s.event = some t ∧ s.leq t = true ∧ t ≠ s := by
  obtain ⟨hi, he⟩ := Reach_isNormB s hR
  obtain ⟨t, ht, hti, _, hleq, hne⟩ := Stamp.event_progress s hi he h0
  refine ⟨t, ht, hleq, ?_⟩
  intro hts
  rw [hts] at hne
  exact hne rfl

/-- Witness for the amended C5 at the seed stamp. -/
theorem C5_amended_witness :
    ∃ t, Stamp.seed.event = some t ∧ Stamp.seed.leq t = true ∧ t ≠ Stamp.seed :=
  C5_amended Stamp.seed Reach.seed (by decide)

/-- Claim C6: `split` always yields two halves, and their `sum` recombines to
the input up to canonicalisation. -/
theorem C6_split_sum (i : IdTree) :
    ∃ a b, i.split = some (.node a b) ∧
      ∃ m, a.sum b = some m ∧ m.norm = i.norm :=
  IdTree.split_sum i

/-- Claim C7, counterexample: stamp-level merge of a stamp with itself fails
(the ownership sum of two overlapping trees hits `unreachable!()`), so
`merge(a,a).history` does not exist for `a = seed`. -/
theorem C7_counterexample : Stamp.join Stamp.seed Stamp.seed = none := by
  decide

/-- Claim C7, amended: history merge is commutative on the nose and joining a
history with itself yields its canonical form. -/
theorem C7_amended :
    (∀ a b : EventTree, a.join b = b.join a) ∧
    (∀ a : EventTree, a.join a = a.norm) :=
  ⟨EventTree.join_comm, EventTree.join_self⟩

/-- Claim C8: decoding the wire encoding of any stamp whose counts fit in
`u32` reproduces the stamp exactly. -/
theorem C8_roundtrip (s : Stamp) (hb : s.e.u32Bounded = true) :
    decodeStamp s.encode = some s :=
  decodeStamp_encode s hb

/-- Witness for C8 at a depth-3 stamp. -/
theorem C8_roundtrip_witness :
    decodeStamp (Stamp.encode ⟨.node IdTree.one IdTree.zero,
      .node 1 (.leaf 0) (.node 2 (.leaf 1) (.leaf 0))⟩) =
      some ⟨.node IdTree.one IdTree.zero,
        .node 1 (.leaf 0) (.node 2 (.leaf 1) (.leaf 0))⟩ :=
  C8_roundtrip _ (by decide)

/-- Claim C9: the concrete scenario of the spec — fork the seed, advance the
left half; ownership and history are `[1,0]`, the seed is below the result,
and the result is not below the right half. -/
theorem C9_example :
    Stamp.fork Stamp.seed = some (⟨.node IdTree.one IdTree.zero, .leaf 0⟩,
      ⟨.node IdTree.zero IdTree.one, .leaf 0⟩) ∧
    Stamp.event ⟨.node IdTree.one IdTree.zero, .leaf 0⟩ =
      some ⟨.node IdTree.one IdTree.zero, .node 0 (.leaf 1) (.leaf 0)⟩ ∧
    Stamp.leq Stamp.seed
      ⟨.node IdTree.one IdTree.zero, .node 0 (.leaf 1) (.leaf 0)⟩ = true ∧
    Stamp.leq ⟨.node IdTree.one IdTree.zero, .node 0 (.leaf 1) (.leaf 0)⟩
      ⟨.node IdTree.zero IdTree.one, .leaf 0⟩ = false := by
  refine ⟨by decide, by decide, ?_, ?_⟩
  · simp [Stamp.leq, Stamp.seed, EventTree.leq]
  · simp [Stamp.leq, EventTree.leq, EventTree.lift]

/-- Claim C10: every stamp reachable from the seed by fork, event, peek and
join keeps both trees in canonical form. -/
theorem C10_reach_canonical (s : Stamp) (h : Reach s) :
    s.i.norm = s.i ∧ s.e.norm = s.e := by
  obtain ⟨hi, he⟩ := Reach_isNormB s h
  exact ⟨IdTree.norm_of_isNormBI s.i hi, EventTree.norm_of_isNormB s.e he⟩

/-- Witness for C10 at the seed. -/
theorem C10_reach_canonical_witness :
    Stamp.seed.i.norm = Stamp.seed.i ∧ Stamp.seed.e.norm = Stamp.seed.e :=
  C10_reach_canonical Stamp.seed Reach.seed


end Itc
